import Mathlib

/-!
# SerialCommandCoordinator

A shallow embedding of `SerialCommandCoordinator.cpp` / `SerialCommandCoordinator.h`
(mattrussmill/SerialCommandCoordinator) and the properties of its line reader,
command table and dispatcher.

Modelling conventions

* A `char` is a value of `Fin 256`; a C string is the run of bytes before the
  first NUL of the memory it lives in (`cstr`).
* `_inputBuffer`, `_commandList` and `_functionList` are lists; an access
  outside the allocated block is undefined behaviour in C and makes the
  modelled function return `none`.
* The `Stream` behind `_device` is the list of bytes it has ready:
  `available()` is its length and `read()` removes its head.  `delay` does not
  change the state.
* A `while` loop that is not a recursion on the device is run on a fuel
  counter; running out of fuel also gives `none`.
* A handler is a function pointer, `none` being `nullptr`; calling it is
  recorded as the list of handlers invoked.
* Whether the `malloc` in `registerCommand` returns a block is an argument of
  the model of `registerCommand`.
-/

namespace SerialCommandCoordinator

/-- One `char` of the stream, of the buffer or of a command name. -/
abbrev Byte := Fin 256

/-- The address of a `void (*)(void)` routine. -/
abbrev Handler := Nat

/-- The characters of the C string stored in `mem`: everything before the first NUL. -/
def cstr : List Byte → List Byte
  | [] => []
  | c :: rest => if c = 0 then [] else c :: cstr rest

/-- The libc `strlen`. -/
def strlen (a : List Byte) : Nat := (cstr a).length

/-- The libc `strcmp`: the difference of the first pair of differing characters,
a string that ends being read as NUL. -/
def strcmp : List Byte → List Byte → Int
  | [], [] => 0
  | [], b :: _ => - (b.val : Int)
  | a :: _, [] => (a.val : Int)
  | a :: as, b :: bs =>
    if a = b then (if a = 0 then 0 else strcmp as bs) else (a.val : Int) - (b.val : Int)

/-- The private members of the class. -/
structure State where
  /-- the bytes `*_device` has ready to be read -/
  _device : List Byte
  _deviceDelay : Nat := 67
  _endMarker : Byte := 10
  _inputValid : Bool := false
  _inputBufferSize : Nat := 32
  _inputDelay : Nat := 34
  _inputBuffer : List Byte
  _commandListSize : Nat := 8
  _commandList : List (Option (List Byte))
  _functionList : List (Option Handler)
  _functionSelected : Option Handler := none
deriving DecidableEq, Repr

/-- The three blocks have the size they were allocated with, and the two sizes
are `uint8_t` values. -/
def State.WF (s : State) : Prop :=
  s._inputBuffer.length = s._inputBufferSize ∧
  s._commandList.length = s._commandListSize ∧
  s._functionList.length = s._commandListSize ∧
  s._inputBufferSize < 256 ∧ s._commandListSize < 256

instance (s : State) : Decidable s.WF := by
  unfold State.WF; infer_instance

/-- The constructor followed by `init()`: the three blocks are `calloc`ed, so
zero-filled.  The two capacities are the default member initialisers 32 and 8
in the header; they are parameters here. -/
def init (device : List Byte) (inputBufferSize commandListSize : Nat) : State :=
  { _device := device
    _inputBufferSize := inputBufferSize
    _inputBuffer := List.replicate inputBufferSize 0
    _commandListSize := commandListSize
    _commandList := List.replicate commandListSize none
    _functionList := List.replicate commandListSize none }

/-- The assignment `a[ndx] = v`, undefined outside the block. -/
def store {α : Type} (a : List α) (ndx : Nat) (v : α) : Option (List α) :=
  if ndx < a.length then some (a.set ndx v) else none

/-- The inner loop of the overflow branch: `while (available() > 0) read();`. -/
def drainPass : List Byte → List Byte
  | [] => []
  | _ :: rest => drainPass rest

/-- The outer loop of the overflow branch:
`while (available() > 0) { <drainPass>; delay(_deviceDelay); }`. -/
def drainDevice : Nat → List Byte → Option (List Byte)
  | 0, _ => none
  | fuel + 1, dev =>
    if dev.length > 0 then drainDevice fuel (drainPass dev) else some dev

/-- The loop `while (_device->available() > 0 && newInput == false)` of
`receiveInput`, entered with `newInput == false`; `dev` is the device and the
result is `newInput` with the state at the loop's exit. -/
def receiveInputLoop (s : State) : List Byte → Nat → Option (Bool × State)
  | [], _ => some (false, { s with _device := [] })
  | rc :: rest, ndx =>
    if rc ≠ s._endMarker ∧ (ndx : Int) < (s._inputBufferSize : Int) - 1 then
      (store s._inputBuffer ndx rc).bind fun buf =>
        receiveInputLoop { s with _inputBuffer := buf } rest ((ndx + 1) % 256)
    else
      (store s._inputBuffer ndx 0).bind fun buf =>
        if rc ≠ s._endMarker ∧ (ndx : Int) ≥ (s._inputBufferSize : Int) - 1 then
          (drainDevice (rest.length + 1) rest).map fun dev =>
            (true, { s with _inputBuffer := buf, _inputValid := false, _device := dev })
        else
          some (true, { s with _inputBuffer := buf, _inputValid := true, _device := rest })

/-- The function `bool SerialCommandCoordinator::receiveInput()`. -/
def receiveInput (s : State) : Option (Bool × State) :=
  if s._device.length > 0 then
    (receiveInputLoop s s._device 0).map fun r => (r.1 && r.2._inputValid, r.2)
  else
    some (false && s._inputValid, s)

/-- The function `const char* getSerialBuffer()`, its result read as a C string. -/
def getSerialBuffer (s : State) : List Byte := cstr s._inputBuffer

/-- The loop of `setSelectedFunction`, from index `ndx`. -/
def setSelectedFunctionLoop (s : State) : Nat → Nat → Option (Bool × State)
  | 0, _ => none
  | fuel + 1, ndx =>
    if ndx < s._commandListSize ∧ s._inputValid = true then
      match s._commandList[ndx]? with
      | none => none
      | some none => some (false, s)
      | some (some name) =>
        if strcmp s._inputBuffer name = 0 then
          match s._functionList[ndx]? with
          | none => none
          | some f => some (true, { s with _functionSelected := f })
        else setSelectedFunctionLoop s fuel (ndx + 1)
    else some (false, s)

/-- The function `bool SerialCommandCoordinator::setSelectedFunction()`. -/
def setSelectedFunction (s : State) : Option (Bool × State) :=
  setSelectedFunctionLoop { s with _functionSelected := none } (s._commandListSize + 1) 0

/-- The function `bool SerialCommandCoordinator::receiveCommandInput()`. -/
def receiveCommandInput (s : State) : Option (Bool × State) :=
  (receiveInput s).bind fun r =>
    if r.1 = true then setSelectedFunction r.2 else some (false, r.2)

/-- How the first loop of `registerCommand` ends. -/
inductive ScanExit where
  /-- the function returns false from inside the loop -/
  | returned
  /-- the loop is left, by `break` or by its test, with this `ndx` -/
  | left (ndx : Nat)
deriving DecidableEq, Repr

/-- The loop `while (ndx < _commandListSize)` of `registerCommand`. -/
def registerCommandLoop (s : State) (command : List Byte) : Nat → Nat → Option ScanExit
  | 0, _ => none
  | fuel + 1, ndx =>
    if ndx < s._commandListSize then
      match s._commandList[ndx]? with
      | none => none
      | some none => some (.left ndx)
      | some (some name) =>
        if strcmp name command = 0 then some .returned
        else registerCommandLoop s command fuel (ndx + 1)
    else some (.left ndx)

/-- The function `bool SerialCommandCoordinator::registerCommand(command, function)`.
`command` is the memory `command` points to (`none` for `nullptr`), and
`mallocOk` says whether the `malloc` of the copy returns a block.  The copy is
held as its characters. -/
def registerCommand (s : State) (command : Option (List Byte)) (function : Option Handler)
    (mallocOk : Bool) : Option (Bool × State) :=
  match command, function with
  | none, _ => some (false, s)
  | _, none => some (false, s)
  | some command, some function =>
    match registerCommandLoop s command (s._commandListSize + 1) 0 with
    | none => none
    | some .returned => some (false, s)
    | some (.left ndx) =>
      if ndx ≥ s._commandListSize then some (false, s)
      else if mallocOk = false then
        (store s._commandList ndx none).map fun cl => (false, { s with _commandList := cl })
      else
        (store s._commandList ndx (some (cstr command))).bind fun cl =>
          (store s._functionList ndx (some function)).map fun fl =>
            (true, { s with _commandList := cl, _functionList := fl })

/-- The function `void SerialCommandCoordinator::runSelectedCommand()`: the handlers it calls. -/
def runSelectedCommand (s : State) : List Handler :=
  if s._inputValid = false ∨ s._functionSelected = none then []
  else
    match s._functionSelected with
    | none => []
    | some f => [f]

/-! ## Auxiliary definitions for the proofs -/

/-- The scan of `registerCommand` over the slots from index `ndx` on. -/
def scanSlots (command : List Byte) : List (Option (List Byte)) → Nat → ScanExit
  | [], ndx => .left ndx
  | none :: _, ndx => .left ndx
  | some name :: rest, ndx =>
    if cstr name = cstr command then .returned else scanSlots command rest (ndx + 1)

/-- The scan of `setSelectedFunction` over the slots from index `ndx` on: the
index of the first slot holding `text`, if it comes before an empty slot. -/
def findSlot (text : List Byte) : List (Option (List Byte)) → Nat → Option Nat
  | [], _ => none
  | none :: _, _ => none
  | some name :: rest, ndx =>
    if cstr text = cstr name then some ndx else findSlot text rest (ndx + 1)

/-- The `_commandList` of a table of capacity `M` holding `entries`, in order,
in its first slots. -/
def tableSlots (M : Nat) (entries : List (List Byte × Handler)) : List (Option (List Byte)) :=
  entries.map (fun e => some e.1) ++ List.replicate (M - entries.length) none

/-- The `_functionList` of a table of capacity `M` holding `entries`. -/
def tableHandlers (M : Nat) (entries : List (List Byte × Handler)) : List (Option Handler) :=
  entries.map (fun e => some e.2) ++ List.replicate (M - entries.length) none

/-- The table of `s` holds `entries`: they fill the first slots in order, every
other slot is empty, the names are pairwise distinct C strings. -/
def Holds (s : State) (entries : List (List Byte × Handler)) : Prop :=
  entries.length ≤ s._commandListSize ∧
  s._commandList = tableSlots s._commandListSize entries ∧
  s._functionList = tableHandlers s._commandListSize entries ∧
  (entries.map Prod.fst).Nodup ∧
  ∀ e ∈ entries, (0 : Byte) ∉ e.1

/-- The states the public operations lead to from a freshly constructed object;
between two calls bytes may arrive at the device. -/
inductive Reachable : State → Prop where
  | init (device : List Byte) (inputBufferSize commandListSize : Nat)
      (hN : inputBufferSize < 256) (hM : commandListSize < 256) :
      Reachable (init device inputBufferSize commandListSize)
  | arrive {s : State} (more : List Byte) :
      Reachable s → Reachable { s with _device := s._device ++ more }
  | registerCommand {s s' : State} {b : Bool} (command : Option (List Byte))
      (function : Option Handler) (mallocOk : Bool) :
      Reachable s → registerCommand s command function mallocOk = some (b, s') → Reachable s'
  | receiveInput {s s' : State} {b : Bool} :
      Reachable s → receiveInput s = some (b, s') → Reachable s'
  | receiveCommandInput {s s' : State} {b : Bool} :
      Reachable s → receiveCommandInput s = some (b, s') → Reachable s'

/-- Registering the commands of `cmds` one after the other, each `malloc`
succeeding: the results of the calls and the final state. -/
def registerAll (s : State) : List (List Byte × Handler) → Option (List Bool × State)
  | [] => some ([], s)
  | c :: rest =>
    (registerCommand s (some c.1) (some c.2) true).bind fun r =>
      (registerAll r.2 rest).map fun q => (r.1 :: q.1, q.2)

/-- What no receive operation changes: the two arrays of the table, the two
capacities, the size of the buffer and the end marker. -/
def SameTable (s s' : State) : Prop :=
  s'._commandList = s._commandList ∧ s'._functionList = s._functionList ∧
  s'._commandListSize = s._commandListSize ∧ s'._inputBufferSize = s._inputBufferSize ∧
  s'._inputBuffer.length = s._inputBuffer.length ∧ s'._endMarker = s._endMarker

/-! ## Concrete states used to instantiate the theorems -/

/-- A table of capacity 2 with `"on"` registered under handler 1, buffer capacity 8. -/
def tableOn : State :=
  { init [] 8 2 with
    _commandList := [some [111, 110], none]
    _functionList := [some 1, none] }

/-- A table of capacity 1 whose only slot is taken. -/
def tableFull : State :=
  { init [] 8 1 with
    _commandList := [some [111, 110]]
    _functionList := [some 1] }

/-- The indices of `_inputBuffer` the loop of `receiveInput` assigns to, in
order: the same tests as `receiveInputLoop`, recording `ndx` at each of the two
assignments `_inputBuffer[ndx] = rc` and `_inputBuffer[ndx] = '\0'`. -/
def writeIndices (s : State) : List Byte → Nat → List Nat
  | [], _ => []
  | rc :: rest, ndx =>
    if rc ≠ s._endMarker ∧ (ndx : Int) < (s._inputBufferSize : Int) - 1 then
      ndx :: writeIndices s rest ((ndx + 1) % 256)
    else
      [ndx]

/-! ## `setBaudRate`

The arithmetic of `setBaudRate` is in `double`.  A `double` that is a number is
modelled by its exact rational value, and a conversion to `double` or a
division in `double` gives the exact result rounded by a function `rnd`, an
argument of the model.  A division by zero leaves the numbers (it gives an
infinity or a NaN) and is not followed: the model returns `none`.  `ceil` is
exact.  The conversion of the result to `uint8_t` is undefined outside
`0 .. 255`, where the model returns `none` too. -/

/-- The quotient `a / b` in `double`. -/
def fdiv (rnd : ℚ → ℚ) (a b : ℚ) : Option ℚ :=
  if b = 0 then none else some (rnd (a / b))

/-- The conversion of an integral `double` to `uint8_t`. -/
def toUint8 (z : Int) : Option Nat :=
  if 0 ≤ z ∧ z < 256 then some z.toNat else none

/-- The function `void SerialCommandCoordinator::setBaudRate(long baudRate)`. -/
def setBaudRate (rnd : ℚ → ℚ) (s : State) (baudRate : Int) : Option State :=
  if baudRate ≤ 0 then some s
  else
    let bytes : ℚ := rnd ((Int.tdiv baudRate 10 : Int) : ℚ)
    let size : ℚ := rnd (s._inputBufferSize : ℚ)
    (fdiv rnd bytes size).bind fun perBuffer =>
      (fdiv rnd 1000 perBuffer).bind fun inputMs =>
        (toUint8 (Int.ceil inputMs)).bind fun inputDelay =>
          (fdiv rnd bytes 64).bind fun perDevice =>
            (fdiv rnd 1000 perDevice).bind fun deviceMs =>
              (toUint8 (Int.ceil deviceMs)).map fun deviceDelay =>
                { s with _inputDelay := inputDelay, _deviceDelay := deviceDelay }

/-- A table of capacity 8 with `"on"` under handler 1 and `"off"` under handler
2, buffer capacity 8. -/
def tableOnOff : State :=
  { init [] 8 8 with
    _commandList := [some [111, 110], some [111, 102, 102], none, none, none, none, none, none]
    _functionList := [some 1, some 2, none, none, none, none, none, none] }

/-- A slot array with a gap: `"off"`, an empty slot, `"on"`; the buffer holds
the valid line `on`. -/
def tableGap : State :=
  { init [] 8 3 with
    _inputValid := true
    _inputBuffer := [111, 110, 0, 0, 0, 0, 0, 0]
    _commandList := [some [111, 102, 102], none, some [111, 110]]
    _functionList := [some 2, none, some 1] }

/-! ## C strings -/

theorem cstr_of_not_mem (l : List Byte) (h : (0 : Byte) ∉ l) : cstr l = l := by
  induction l with
  | nil => rfl
  | cons c rest ih =>
    simp only [List.mem_cons, not_or] at h
    have hc : c ≠ 0 := fun e => h.1 e.symm
    simp [cstr, hc, ih h.2]

theorem cstr_append_zero (l r : List Byte) (h : (0 : Byte) ∉ l) : cstr (l ++ 0 :: r) = l := by
  induction l with
  | nil => simp [cstr]
  | cons c rest ih =>
    simp only [List.mem_cons, not_or] at h
    have hc : c ≠ 0 := fun e => h.1 e.symm
    simp [cstr, hc, ih h.2]

theorem zero_not_mem_cstr (l : List Byte) : (0 : Byte) ∉ cstr l := by
  induction l with
  | nil => simp [cstr]
  | cons c rest ih =>
    by_cases hc : c = 0
    · simp [cstr, hc]
    · simp only [cstr, hc, if_false, List.mem_cons, not_or]
      exact ⟨fun e => hc e.symm, ih⟩

theorem cstr_cstr (l : List Byte) : cstr (cstr l) = cstr l :=
  cstr_of_not_mem _ (zero_not_mem_cstr l)

theorem strcmp_eq_zero_iff (a b : List Byte) : strcmp a b = 0 ↔ cstr a = cstr b := by
  induction a generalizing b with
  | nil =>
    cases b with
    | nil => simp [strcmp, cstr]
    | cons y ys =>
      by_cases hy : y = 0
      · simp [strcmp, cstr, hy]
      · have : (y.val : Int) ≠ 0 := by
          intro e; apply hy; apply Fin.ext; simpa using e
        simp [strcmp, cstr, hy, this]
  | cons x xs ih =>
    cases b with
    | nil =>
      by_cases hx : x = 0
      · simp [strcmp, cstr, hx]
      · have : (x.val : Int) ≠ 0 := by
          intro e; apply hx; apply Fin.ext; simpa using e
        simp [strcmp, cstr, hx, this]
    | cons y ys =>
      by_cases hxy : x = y
      · subst hxy
        by_cases hx : x = 0
        · simp [strcmp, cstr, hx]
        · simp [strcmp, cstr, hx, ih]
      · have hne : (x.val : Int) - (y.val : Int) ≠ 0 := by
          intro e; apply hxy; apply Fin.ext; omega
        have hl : strcmp (x :: xs) (y :: ys) ≠ 0 := by
          simpa [strcmp, hxy] using hne
        have hr : cstr (x :: xs) ≠ cstr (y :: ys) := by
          by_cases hx : x = 0 <;> by_cases hy : y = 0
          · exact absurd (hx.trans hy.symm) hxy
          · simp [cstr, hx, hy]
          · simp [cstr, hx, hy]
          · simp [cstr, hx, hy, hxy]
        exact ⟨fun h => absurd h hl, fun h => absurd h hr⟩

/-! ## The device -/

theorem drainPass_eq_nil (dev : List Byte) : drainPass dev = [] := by
  induction dev with
  | nil => rfl
  | cons _ rest ih => simpa [drainPass] using ih

theorem drainDevice_eq (dev : List Byte) : drainDevice (dev.length + 1) dev = some [] := by
  cases dev with
  | nil => simp [drainDevice]
  | cons c rest => simp [drainDevice, drainPass_eq_nil]


/-! ## The line reader -/

theorem store_eq {α : Type} (a : List α) (ndx : Nat) (v : α) (h : ndx < a.length) :
    store a ndx v = some (a.take ndx ++ v :: a.drop (ndx + 1)) := by
  simp [store, h, List.set_eq_take_append_cons_drop]

theorem receiveInputLoop_clean (line : List Byte) :
    ∀ (s : State) (ndx : Nat) (rest : List Byte),
      s._endMarker ∉ line → ndx + line.length < s._inputBuffer.length →
      s._inputBuffer.length = s._inputBufferSize → s._inputBufferSize < 256 →
      receiveInputLoop s (line ++ s._endMarker :: rest) ndx =
        some (true, { s with
          _inputBuffer := s._inputBuffer.take ndx ++ line ++
            0 :: s._inputBuffer.drop (ndx + line.length + 1)
          _inputValid := true
          _device := rest }) := by
  induction line with
  | nil =>
    intro s ndx rest _ hlen _ _
    simp only [List.length_nil, Nat.add_zero] at hlen
    simp [receiveInputLoop, store_eq _ _ _ hlen]
  | cons c cs ih =>
    intro s ndx rest hem hlen hsz h256
    simp only [List.mem_cons, not_or] at hem
    simp only [List.length_cons] at hlen
    have hc : c ≠ s._endMarker := fun e => hem.1 e.symm
    have hlt : (ndx : Int) < (s._inputBufferSize : Int) - 1 := by omega
    have hnd : ndx < s._inputBuffer.length := by omega
    have hmod : (ndx + 1) % 256 = ndx + 1 := Nat.mod_eq_of_lt (by omega)
    have hlen2 : (s._inputBuffer.take ndx ++ c :: s._inputBuffer.drop (ndx + 1)).length
        = s._inputBuffer.length := by
      simp; omega
    have key := ih { s with _inputBuffer := s._inputBuffer.take ndx ++ c :: s._inputBuffer.drop (ndx + 1) }
      (ndx + 1) rest hem.2 (by simp only [hlen2]; omega) (by simp only [hlen2]; exact hsz) h256
    dsimp only at key
    simp only [List.cons_append, receiveInputLoop, ne_eq, hc, not_false_eq_true, hlt, and_self,
      if_true, store_eq _ _ _ hnd, Option.some_bind, hmod, List.append_eq]
    rw [key]
    have e1 : (s._inputBuffer.take ndx ++ c :: s._inputBuffer.drop (ndx + 1)).take (ndx + 1)
        = s._inputBuffer.take ndx ++ [c] := by
      rw [List.take_append_eq_append_take]
      simp [List.length_take, Nat.min_eq_left (Nat.le_of_lt hnd)]
    have e2 : (s._inputBuffer.take ndx ++ c :: s._inputBuffer.drop (ndx + 1)).drop
        (ndx + 1 + cs.length + 1) = s._inputBuffer.drop (ndx + (cs.length + 1) + 1) := by
      rw [List.drop_append_eq_append_drop]
      have h1 : (List.take ndx s._inputBuffer).length = ndx := by
        simp [List.length_take, Nat.min_eq_left (Nat.le_of_lt hnd)]
      have h2 : ndx + 1 + cs.length + 1 - ndx = (cs.length + 1) + 1 := by omega
      rw [h1, h2, List.drop_succ_cons, List.drop_drop, List.drop_eq_nil_of_le (by omega)]
      simp only [List.nil_append]
      congr 1
      omega
    simp [e1, e2]


theorem receiveInputLoop_overflow (pre : List Byte) :
    ∀ (s : State) (ndx : Nat) (c : Byte) (rest : List Byte),
      s._endMarker ∉ pre → c ≠ s._endMarker → ndx + pre.length + 1 = s._inputBuffer.length →
      s._inputBuffer.length = s._inputBufferSize → s._inputBufferSize < 256 →
      receiveInputLoop s (pre ++ c :: rest) ndx =
        some (true, { s with
          _inputBuffer := s._inputBuffer.take ndx ++ pre ++ [0]
          _inputValid := false
          _device := [] }) := by
  induction pre with
  | nil =>
    intro s ndx c rest _ hc hlen hsz _
    simp only [List.length_nil, Nat.add_zero] at hlen
    have hnd : ndx < s._inputBuffer.length := by omega
    have hge : ¬ ((ndx : Int) < (s._inputBufferSize : Int) - 1) := by omega
    have hge2 : (ndx : Int) ≥ (s._inputBufferSize : Int) - 1 := by omega
    have hdrop : s._inputBuffer.drop (ndx + 1) = [] := List.drop_eq_nil_of_le (by omega)
    simp [receiveInputLoop, store_eq _ _ _ hnd, hc, hge, hge2, drainDevice_eq, hdrop]
  | cons b bs ih =>
    intro s ndx c rest hem hc hlen hsz h256
    simp only [List.mem_cons, not_or] at hem
    simp only [List.length_cons] at hlen
    have hb : b ≠ s._endMarker := fun e => hem.1 e.symm
    have hlt : (ndx : Int) < (s._inputBufferSize : Int) - 1 := by omega
    have hnd : ndx < s._inputBuffer.length := by omega
    have hmod : (ndx + 1) % 256 = ndx + 1 := Nat.mod_eq_of_lt (by omega)
    have hlen2 : (s._inputBuffer.take ndx ++ b :: s._inputBuffer.drop (ndx + 1)).length
        = s._inputBuffer.length := by
      simp; omega
    have key := ih { s with _inputBuffer := s._inputBuffer.take ndx ++ b :: s._inputBuffer.drop (ndx + 1) }
      (ndx + 1) c rest hem.2 hc (by simp only [hlen2]; omega) (by simp only [hlen2]; exact hsz) h256
    dsimp only at key
    simp only [List.cons_append, receiveInputLoop, ne_eq, hb, not_false_eq_true, hlt, and_self,
      if_true, store_eq _ _ _ hnd, Option.some_bind, hmod, List.append_eq]
    rw [key]
    have e1 : (s._inputBuffer.take ndx ++ b :: s._inputBuffer.drop (ndx + 1)).take (ndx + 1)
        = s._inputBuffer.take ndx ++ [b] := by
      rw [List.take_append_eq_append_take]
      simp [List.length_take, Nat.min_eq_left (Nat.le_of_lt hnd)]
    simp [e1]

/-- What `receiveInput` does on a line that fits: every byte of the line is in
place, the terminator follows it, and the bytes behind the end marker stay in
the device. -/
theorem receiveInput_clean (s : State) (hwf : s.WF) (line rest : List Byte)
    (hlen : line.length < s._inputBufferSize) (hem : s._endMarker ∉ line)
    (hdev : s._device = line ++ s._endMarker :: rest) :
    receiveInput s = some (true, { s with
      _inputBuffer := line ++ 0 :: s._inputBuffer.drop (line.length + 1)
      _inputValid := true
      _device := rest }) := by
  obtain ⟨hb, _, _, h256, _⟩ := hwf
  have key := receiveInputLoop_clean line s 0 rest hem (by omega) hb h256
  simp only [List.take_zero, List.nil_append, Nat.zero_add] at key
  simp [receiveInput, hdev, key]

/-- What `receiveInput` does on a line that does not fit: the first
`_inputBufferSize - 1` bytes are in place, the terminator is the last byte of
the buffer, and the device is empty. -/
theorem receiveInput_overflow (s : State) (hwf : s.WF) (input : List Byte)
    (hN : 1 ≤ s._inputBufferSize) (hlen : s._inputBufferSize ≤ input.length)
    (hem : s._endMarker ∉ input.take s._inputBufferSize) (hdev : s._device = input) :
    receiveInput s = some (false, { s with
      _inputBuffer := input.take (s._inputBufferSize - 1) ++ [0]
      _inputValid := false
      _device := [] }) := by
  obtain ⟨hb, _, _, h256, _⟩ := hwf
  obtain ⟨N, hNe⟩ : ∃ N, s._inputBufferSize = N + 1 := ⟨s._inputBufferSize - 1, by omega⟩
  have hsplit : input = input.take N ++ input[N] :: input.drop (N + 1) := by
    rw [← List.drop_eq_getElem_cons (by omega), List.take_append_drop]
  have hem1 : s._endMarker ∉ input.take N := by
    intro h
    apply hem
    rw [hNe, List.mem_take_iff_getElem]
    rw [List.mem_take_iff_getElem] at h
    obtain ⟨i, hi, he⟩ := h
    exact ⟨i, by simp at hi ⊢; omega, he⟩
  have hc : input[N] ≠ s._endMarker := by
    intro h
    apply hem
    rw [hNe, List.mem_take_iff_getElem]
    exact ⟨N, by simp; omega, h⟩
  have key := receiveInputLoop_overflow (input.take N) s 0 (input[N]) (input.drop (N + 1)) hem1 hc
    (by simp [List.length_take]; omega) hb h256
  rw [← hsplit] at key
  simp only [List.take_zero, List.nil_append] at key
  have hpos : 0 < input.length := by omega
  simp [receiveInput, hdev, key, hNe, hpos]


/-! ## The loops over the command table -/

theorem registerCommandLoop_eq (s : State) (command : List Byte)
    (hc : s._commandList.length = s._commandListSize) :
    ∀ (fuel ndx : Nat), s._commandListSize - ndx < fuel →
      registerCommandLoop s command fuel ndx
        = some (scanSlots command (s._commandList.drop ndx) ndx) := by
  intro fuel
  induction fuel with
  | zero => intro ndx h; omega
  | succ fuel ih =>
    intro ndx hfuel
    by_cases hlt : ndx < s._commandListSize
    · have hlt2 : ndx < s._commandList.length := by omega
      rw [List.drop_eq_getElem_cons hlt2]
      simp only [registerCommandLoop, hlt, if_true, List.getElem?_eq_getElem hlt2]
      cases hslot : s._commandList[ndx] with
      | none => simp [scanSlots]
      | some name =>
        by_cases hm : cstr name = cstr command
        · simp [scanSlots, hm, strcmp_eq_zero_iff]
        · simp only [scanSlots, hm, strcmp_eq_zero_iff, if_false]
          exact ih (ndx + 1) (by omega)
    · have : s._commandList.drop ndx = [] := List.drop_eq_nil_of_le (by omega)
      simp [registerCommandLoop, hlt, this, scanSlots]

theorem setSelectedFunctionLoop_eq (s : State) (hv : s._inputValid = true)
    (hc : s._commandList.length = s._commandListSize)
    (hf : s._functionList.length = s._commandListSize) :
    ∀ (fuel ndx : Nat), s._commandListSize - ndx < fuel →
      setSelectedFunctionLoop s fuel ndx
        = some (match findSlot s._inputBuffer (s._commandList.drop ndx) ndx with
                | none => (false, s)
                | some i => (true, { s with _functionSelected := s._functionList.getD i none })) := by
  intro fuel
  induction fuel with
  | zero => intro ndx h; omega
  | succ fuel ih =>
    intro ndx hfuel
    by_cases hlt : ndx < s._commandListSize
    · have hlt2 : ndx < s._commandList.length := by omega
      have hlt3 : ndx < s._functionList.length := by omega
      rw [List.drop_eq_getElem_cons hlt2]
      simp only [setSelectedFunctionLoop, hlt, hv, and_self, if_true,
        List.getElem?_eq_getElem hlt2]
      cases hslot : s._commandList[ndx] with
      | none => simp [findSlot]
      | some name =>
        by_cases hm : cstr s._inputBuffer = cstr name
        · simp [findSlot, hm, strcmp_eq_zero_iff, List.getElem?_eq_getElem hlt3,
            List.getD_eq_getElem _ _ hlt3]
        · have hrec := ih (ndx + 1) (by omega)
          simp only [findSlot, hm, strcmp_eq_zero_iff, if_false]
          simp only [hv] at hrec
          exact hrec
    · have : s._commandList.drop ndx = [] := List.drop_eq_nil_of_le (by omega)
      simp [setSelectedFunctionLoop, hlt, this, findSlot]


/-! ## Scanning a table -/

theorem scanSlots_replicate_none (command : List Byte) (m ndx : Nat) :
    scanSlots command (List.replicate m none) ndx = .left ndx := by
  cases m <;> simp [List.replicate, scanSlots]

theorem scanSlots_skip (command : List Byte) (pre : List (List Byte × Handler))
    (post : List (Option (List Byte))) :
    ∀ ndx, (∀ e ∈ pre, cstr e.1 ≠ cstr command) →
      scanSlots command (pre.map (fun e => some e.1) ++ post) ndx
        = scanSlots command post (ndx + pre.length) := by
  induction pre with
  | nil => intro ndx _; simp
  | cons e es ih =>
    intro ndx h
    have he : cstr e.1 ≠ cstr command := h e (List.mem_cons_self _ _)
    have hes : ∀ x ∈ es, cstr x.1 ≠ cstr command := fun x hx => h x (List.mem_cons_of_mem _ hx)
    simp only [List.map_cons, List.cons_append, scanSlots, he, if_false, List.length_cons,
      List.append_eq]
    rw [ih (ndx + 1) hes]
    congr 1
    omega

theorem scanSlots_hit (command : List Byte) (pre : List (List Byte × Handler))
    (post : List (Option (List Byte))) :
    ∀ ndx, (∃ e ∈ pre, cstr e.1 = cstr command) →
      scanSlots command (pre.map (fun e => some e.1) ++ post) ndx = .returned := by
  induction pre with
  | nil => intro ndx h; obtain ⟨e, he, _⟩ := h; cases he
  | cons e es ih =>
    intro ndx h
    by_cases he : cstr e.1 = cstr command
    · simp [scanSlots, he]
    · have : ∃ x ∈ es, cstr x.1 = cstr command := by
        obtain ⟨x, hx, hxe⟩ := h
        rcases List.mem_cons.1 hx with rfl | hx
        · exact absurd hxe he
        · exact ⟨x, hx, hxe⟩
      simp only [List.map_cons, List.cons_append, scanSlots, he, if_false, List.append_eq]
      exact ih (ndx + 1) this

theorem scanSlots_full (command : List Byte) (l : List (Option (List Byte))) :
    ∀ ndx, (∀ slot ∈ l, slot ≠ none) →
      scanSlots command l ndx = .returned ∨ scanSlots command l ndx = .left (ndx + l.length) := by
  induction l with
  | nil => intro ndx _; simp [scanSlots]
  | cons slot rest ih =>
    intro ndx h
    cases slot with
    | none => exact absurd rfl (h none (List.mem_cons_self _ _))
    | some name =>
      by_cases hm : cstr name = cstr command
      · simp [scanSlots, hm]
      · simp only [scanSlots, hm, if_false, List.length_cons]
        have := ih (ndx + 1) (fun x hx => h x (List.mem_cons_of_mem _ hx))
        rwa [show ndx + (rest.length + 1) = ndx + 1 + rest.length by omega]

/-- The scan either returns, or stops at an index within the table; below the
capacity the slot it stops at is empty. -/
theorem scanSlots_left (command : List Byte) (l : List (Option (List Byte))) :
    ∀ ndx j, scanSlots command l ndx = .left j →
      ndx ≤ j ∧ j ≤ ndx + l.length ∧ (j < ndx + l.length → l[j - ndx]? = some none) := by
  induction l with
  | nil => intro ndx j h; simp [scanSlots] at h; subst h; simp
  | cons slot rest ih =>
    intro ndx j h
    cases slot with
    | none => simp [scanSlots] at h; subst h; simp
    | some name =>
      by_cases hm : cstr name = cstr command
      · simp [scanSlots, hm] at h
      · simp only [scanSlots, hm, if_false] at h
        obtain ⟨h1, h2, h3⟩ := ih (ndx + 1) j h
        refine ⟨by omega, by simp only [List.length_cons]; omega, fun hj => ?_⟩
        have := h3 (by simp only [List.length_cons] at hj; omega)
        rw [show j - ndx = (j - (ndx + 1)) + 1 by omega, List.getElem?_cons_succ]
        exact this

theorem findSlot_replicate_none (text : List Byte) (m ndx : Nat) :
    findSlot text (List.replicate m none) ndx = none := by
  cases m <;> simp [List.replicate, findSlot]

theorem findSlot_none (text : List Byte) (l : List (Option (List Byte))) :
    ∀ ndx, (∀ name, some name ∈ l → cstr text ≠ cstr name) → findSlot text l ndx = none := by
  induction l with
  | nil => intro ndx _; rfl
  | cons slot rest ih =>
    intro ndx h
    cases slot with
    | none => rfl
    | some name =>
      have hm : cstr text ≠ cstr name := h name (List.mem_cons_self _ _)
      simp only [findSlot, hm, if_false]
      exact ih (ndx + 1) (fun n hn => h n (List.mem_cons_of_mem _ hn))

theorem findSlot_skip (text : List Byte) (pre : List (List Byte × Handler))
    (post : List (Option (List Byte))) :
    ∀ ndx, (∀ e ∈ pre, cstr text ≠ cstr e.1) →
      findSlot text (pre.map (fun e => some e.1) ++ post) ndx
        = findSlot text post (ndx + pre.length) := by
  induction pre with
  | nil => intro ndx _; simp
  | cons e es ih =>
    intro ndx h
    have he : cstr text ≠ cstr e.1 := h e (List.mem_cons_self _ _)
    have hes : ∀ x ∈ es, cstr text ≠ cstr x.1 := fun x hx => h x (List.mem_cons_of_mem _ hx)
    simp only [List.map_cons, List.cons_append, findSlot, he, if_false, List.length_cons,
      List.append_eq]
    rw [ih (ndx + 1) hes]
    congr 1
    omega

/-! ## `registerCommand` -/

theorem set_of_getElem? {α : Type} (l : List α) (i : Nat) (v : α) (h : l[i]? = some v) :
    l.set i v = l := by
  apply List.ext_getElem?
  intro j
  by_cases hij : i = j
  · subst hij
    rw [List.getElem?_set_self', h]; rfl
  · rw [List.getElem?_set_ne hij]

theorem registerCommand_null_command (s : State) (function : Option Handler) (mallocOk : Bool) :
    registerCommand s none function mallocOk = some (false, s) := by
  cases function <;> rfl

theorem registerCommand_null_function (s : State) (command : Option (List Byte))
    (mallocOk : Bool) : registerCommand s command none mallocOk = some (false, s) := by
  cases command <;> rfl

theorem registerCommand_returned (s : State) (hc : s._commandList.length = s._commandListSize)
    (mem : List Byte) (f : Handler) (mallocOk : Bool)
    (h : scanSlots mem s._commandList 0 = .returned) :
    registerCommand s (some mem) (some f) mallocOk = some (false, s) := by
  have := registerCommandLoop_eq s mem hc (s._commandListSize + 1) 0 (by omega)
  rw [List.drop_zero, h] at this
  simp [registerCommand, this]

theorem registerCommand_no_room (s : State) (hc : s._commandList.length = s._commandListSize)
    (mem : List Byte) (f : Handler) (mallocOk : Bool) (ndx : Nat)
    (h : scanSlots mem s._commandList 0 = .left ndx) (hge : s._commandListSize ≤ ndx) :
    registerCommand s (some mem) (some f) mallocOk = some (false, s) := by
  have := registerCommandLoop_eq s mem hc (s._commandListSize + 1) 0 (by omega)
  rw [List.drop_zero, h] at this
  simp [registerCommand, this, hge]

theorem registerCommand_no_memory (s : State) (hc : s._commandList.length = s._commandListSize)
    (mem : List Byte) (f : Handler) (ndx : Nat)
    (h : scanSlots mem s._commandList 0 = .left ndx) (hlt : ndx < s._commandListSize) :
    registerCommand s (some mem) (some f) false = some (false, s) := by
  have := registerCommandLoop_eq s mem hc (s._commandListSize + 1) 0 (by omega)
  rw [List.drop_zero, h] at this
  have hslot := (scanSlots_left mem s._commandList 0 ndx h).2.2 (by omega)
  have hset : s._commandList.set ndx none = s._commandList :=
    set_of_getElem? _ _ _ (by simpa using hslot)
  have hlt2 : ndx < s._commandList.length := by omega
  simp [registerCommand, this, Nat.not_le.2 hlt, store, hlt2, hset]

theorem registerCommand_stored (s : State) (hc : s._commandList.length = s._commandListSize)
    (hf : s._functionList.length = s._commandListSize)
    (mem : List Byte) (f : Handler) (ndx : Nat)
    (h : scanSlots mem s._commandList 0 = .left ndx) (hlt : ndx < s._commandListSize) :
    registerCommand s (some mem) (some f) true = some (true, { s with
      _commandList := s._commandList.set ndx (some (cstr mem))
      _functionList := s._functionList.set ndx (some f) }) := by
  have := registerCommandLoop_eq s mem hc (s._commandListSize + 1) 0 (by omega)
  rw [List.drop_zero, h] at this
  have hlt2 : ndx < s._commandList.length := by omega
  have hlt3 : ndx < s._functionList.length := by omega
  simp [registerCommand, this, Nat.not_le.2 hlt, store, hlt2, hlt3]

/-- Every call of `registerCommand` on a well-formed table returns, and it
returns false with the state unchanged or true with one empty slot filled. -/
theorem registerCommand_cases (s : State) (hwf : s.WF) (command : Option (List Byte))
    (function : Option Handler) (mallocOk : Bool) :
    registerCommand s command function mallocOk = some (false, s) ∨
    ∃ mem f ndx, command = some mem ∧ function = some f ∧ mallocOk = true ∧
      scanSlots mem s._commandList 0 = .left ndx ∧ ndx < s._commandListSize ∧
      registerCommand s command function mallocOk = some (true, { s with
        _commandList := s._commandList.set ndx (some (cstr mem))
        _functionList := s._functionList.set ndx (some f) }) := by
  obtain ⟨_, hc, hf, _, _⟩ := hwf
  cases command with
  | none => exact Or.inl (registerCommand_null_command s function mallocOk)
  | some mem =>
    cases function with
    | none => exact Or.inl (registerCommand_null_function s (some mem) mallocOk)
    | some f =>
      cases hscan : scanSlots mem s._commandList 0 with
      | returned => exact Or.inl (registerCommand_returned s hc mem f mallocOk hscan)
      | left ndx =>
        by_cases hlt : ndx < s._commandListSize
        · cases mallocOk with
          | false => exact Or.inl (registerCommand_no_memory s hc mem f ndx hscan hlt)
          | true =>
            exact Or.inr ⟨mem, f, ndx, rfl, rfl, rfl, hscan, hlt,
              registerCommand_stored s hc hf mem f ndx hscan hlt⟩
        · exact Or.inl (registerCommand_no_room s hc mem f mallocOk ndx hscan (by omega))

/-! ## The table invariant -/

theorem tableSlots_length (M : Nat) (entries : List (List Byte × Handler))
    (h : entries.length ≤ M) : (tableSlots M entries).length = M := by
  simp [tableSlots]; omega

theorem tableHandlers_length (M : Nat) (entries : List (List Byte × Handler))
    (h : entries.length ≤ M) : (tableHandlers M entries).length = M := by
  simp [tableHandlers]; omega

theorem tableSlots_set (M : Nat) (entries : List (List Byte × Handler)) (x : List Byte)
    (f : Handler) (h : entries.length < M) :
    (tableSlots M entries).set entries.length (some x) = tableSlots M (entries ++ [(x, f)]) := by
  obtain ⟨m, hm⟩ : ∃ m, M - entries.length = m + 1 := ⟨M - entries.length - 1, by omega⟩
  have hm2 : M - (entries.length + 1) = m := by omega
  unfold tableSlots
  rw [List.set_append_right _ _ (by simp)]
  simp [hm, hm2, List.replicate_succ]

theorem tableHandlers_set (M : Nat) (entries : List (List Byte × Handler)) (x : List Byte)
    (f : Handler) (h : entries.length < M) :
    (tableHandlers M entries).set entries.length (some f) = tableHandlers M (entries ++ [(x, f)]) := by
  obtain ⟨m, hm⟩ : ∃ m, M - entries.length = m + 1 := ⟨M - entries.length - 1, by omega⟩
  have hm2 : M - (entries.length + 1) = m := by omega
  unfold tableHandlers
  rw [List.set_append_right _ _ (by simp)]
  simp [hm, hm2, List.replicate_succ]

theorem holds_init (device : List Byte) (N M : Nat) : Holds (init device N M) [] := by
  simp [Holds, init, tableSlots, tableHandlers]

theorem holds_name_eq {s : State} {entries : List (List Byte × Handler)} (h : Holds s entries)
    {e : List Byte × Handler} (he : e ∈ entries) : cstr e.1 = e.1 :=
  cstr_of_not_mem _ (h.2.2.2.2 e he)

/-- On a table holding `entries` the scan of `registerCommand` returns at a
registered name and stops at the first free index otherwise. -/
theorem scanSlots_holds {s : State} {entries : List (List Byte × Handler)} (h : Holds s entries)
    (mem : List Byte) :
    (cstr mem ∈ entries.map Prod.fst → scanSlots mem s._commandList 0 = .returned) ∧
    (cstr mem ∉ entries.map Prod.fst → scanSlots mem s._commandList 0 = .left entries.length) := by
  obtain ⟨_, hcl, _, _, _⟩ := id h
  rw [hcl, tableSlots]
  constructor
  · intro hin
    obtain ⟨e, he, hee⟩ := List.mem_map.1 hin
    exact scanSlots_hit mem entries _ 0 ⟨e, he, by rw [holds_name_eq h he, hee]⟩
  · intro hnin
    rw [scanSlots_skip mem entries _ 0, scanSlots_replicate_none, Nat.zero_add]
    intro e he heq
    apply hnin
    rw [← heq, holds_name_eq h he]
    exact List.mem_map_of_mem _ he

theorem holds_append {s : State} {entries : List (List Byte × Handler)} (h : Holds s entries)
    (mem : List Byte) (f : Handler) (hnin : cstr mem ∉ entries.map Prod.fst)
    (hlt : entries.length < s._commandListSize) :
    Holds { s with
      _commandList := s._commandList.set entries.length (some (cstr mem))
      _functionList := s._functionList.set entries.length (some f) }
      (entries ++ [(cstr mem, f)]) := by
  obtain ⟨_, hcl, hfl, hnd, hz⟩ := h
  refine ⟨by simp; omega, ?_, ?_, ?_, ?_⟩
  · simp only [hcl]; exact tableSlots_set _ _ _ f hlt
  · simp only [hfl]; exact tableHandlers_set _ _ (cstr mem) f hlt
  · rw [List.map_append, List.nodup_append]
    refine ⟨hnd, by simp, ?_⟩
    intro a ha hb
    simp at hb
    subst hb
    exact hnin (by simpa using ha)
  · intro e he
    rcases List.mem_append.1 he with he | he
    · exact hz e he
    · simp at he
      subst he
      exact zero_not_mem_cstr mem

theorem holds_wf_table {s : State} {entries : List (List Byte × Handler)} (h : Holds s entries) :
    s._commandList.length = s._commandListSize ∧ s._functionList.length = s._commandListSize := by
  obtain ⟨hle, hcl, hfl, _, _⟩ := h
  exact ⟨by rw [hcl]; exact tableSlots_length _ _ hle, by rw [hfl]; exact tableHandlers_length _ _ hle⟩

/-- The behaviour of `registerCommand` on a table holding `entries`: a registered name is
refused whatever the handler, and a new name is appended when there is room and
memory. -/
theorem registerCommand_holds {s : State} {entries : List (List Byte × Handler)}
    (h : Holds s entries) (mem : List Byte) :
    (cstr mem ∈ entries.map Prod.fst → ∀ function mallocOk,
      registerCommand s (some mem) function mallocOk = some (false, s)) ∧
    (cstr mem ∉ entries.map Prod.fst → entries.length < s._commandListSize → ∀ f,
      registerCommand s (some mem) (some f) true = some (true, { s with
        _commandList := s._commandList.set entries.length (some (cstr mem))
        _functionList := s._functionList.set entries.length (some f) })) := by
  obtain ⟨hc, hf⟩ := holds_wf_table h
  obtain ⟨hin, hnin⟩ := scanSlots_holds h mem
  constructor
  · intro hmem function mallocOk
    cases function with
    | none => exact registerCommand_null_function s _ mallocOk
    | some f => exact registerCommand_returned s hc mem f mallocOk (hin hmem)
  · intro hmem hlt f
    exact registerCommand_stored s hc hf mem f _ (hnin hmem) hlt

/-- A call of `registerCommand` keeps the table in the form `Holds`. -/
theorem holds_registerCommand {s s' : State} {entries : List (List Byte × Handler)}
    (hwf : s.WF) (h : Holds s entries) {command : Option (List Byte)}
    {function : Option Handler} {mallocOk b : Bool}
    (hstep : registerCommand s command function mallocOk = some (b, s')) :
    ∃ entries', Holds s' entries' := by
  rcases registerCommand_cases s hwf command function mallocOk with hsame | hstored
  · rw [hsame] at hstep
    simp only [Option.some.injEq, Prod.mk.injEq] at hstep
    exact ⟨entries, hstep.2 ▸ h⟩
  · obtain ⟨mem, f, ndx, _, _, _, hscan, hlt, heq⟩ := hstored
    rw [heq] at hstep
    simp only [Option.some.injEq, Prod.mk.injEq] at hstep
    obtain ⟨hin, hnin⟩ := scanSlots_holds h mem
    by_cases hmem : cstr mem ∈ entries.map Prod.fst
    · rw [hin hmem] at hscan; cases hscan
    · have hk := hnin hmem
      rw [hscan] at hk
      injection hk with hk
      subst hk
      exact ⟨_, hstep.2 ▸ holds_append h mem f hmem hlt⟩

/-! ## What the receive operations leave alone -/

theorem SameTable.refl (s : State) : SameTable s s := ⟨rfl, rfl, rfl, rfl, rfl, rfl⟩

theorem SameTable.trans {a b c : State} (h1 : SameTable a b) (h2 : SameTable b c) :
    SameTable a c := by
  unfold SameTable at *
  refine ⟨?_, ?_, ?_, ?_, ?_, ?_⟩
  · rw [h2.1, h1.1]
  · rw [h2.2.1, h1.2.1]
  · rw [h2.2.2.1, h1.2.2.1]
  · rw [h2.2.2.2.1, h1.2.2.2.1]
  · rw [h2.2.2.2.2.1, h1.2.2.2.2.1]
  · rw [h2.2.2.2.2.2, h1.2.2.2.2.2]

theorem SameTable.wf {s s' : State} (h : SameTable s s') (hwf : s.WF) : s'.WF := by
  obtain ⟨a1, a2, a3, a4, a5, _⟩ := h
  obtain ⟨w1, w2, w3, w4, w5⟩ := hwf
  exact ⟨by rw [a5, a4]; exact w1, by rw [a1, a3]; exact w2, by rw [a2, a3]; exact w3,
    by rw [a4]; exact w4, by rw [a3]; exact w5⟩

theorem SameTable.holds {s s' : State} (h : SameTable s s') {entries : List (List Byte × Handler)}
    (hh : Holds s entries) : Holds s' entries := by
  obtain ⟨a1, a2, a3, _, _, _⟩ := h
  obtain ⟨h1, h2, h3, h4, h5⟩ := hh
  exact ⟨by rw [a3]; exact h1, by rw [a1, a3]; exact h2, by rw [a2, a3]; exact h3, h4, h5⟩

theorem store_length {α : Type} {a b : List α} {ndx : Nat} {v : α} (h : store a ndx v = some b) :
    b.length = a.length := by
  unfold store at h
  split at h
  · simp only [Option.some.injEq] at h; subst h; simp
  · cases h

theorem receiveInputLoop_sameTable (dev : List Byte) :
    ∀ (s : State) (ndx : Nat) (b : Bool) (s' : State),
      receiveInputLoop s dev ndx = some (b, s') → SameTable s s' := by
  induction dev with
  | nil =>
    intro s ndx b s' h
    simp only [receiveInputLoop, Option.some.injEq, Prod.mk.injEq] at h
    obtain ⟨_, rfl⟩ := h
    exact ⟨rfl, rfl, rfl, rfl, rfl, rfl⟩
  | cons rc rest ih =>
    intro s ndx b s' h
    simp only [receiveInputLoop] at h
    split at h
    · cases hst : store s._inputBuffer ndx rc with
      | none => simp [hst] at h
      | some buf =>
        simp only [hst, Option.some_bind] at h
        have := ih _ _ _ _ h
        exact SameTable.trans (show SameTable s { s with _inputBuffer := buf } from
          ⟨rfl, rfl, rfl, rfl, store_length hst, rfl⟩) this
    · cases hst : store s._inputBuffer ndx 0 with
      | none => simp [hst] at h
      | some buf =>
        simp only [hst, Option.some_bind] at h
        split at h
        · cases hd : drainDevice (rest.length + 1) rest with
          | none => simp [hd] at h
          | some dev =>
            simp only [hd, Option.map_some', Option.some.injEq, Prod.mk.injEq] at h
            obtain ⟨_, rfl⟩ := h
            exact ⟨rfl, rfl, rfl, rfl, store_length hst, rfl⟩
        · simp only [Option.some.injEq, Prod.mk.injEq] at h
          obtain ⟨_, rfl⟩ := h
          exact ⟨rfl, rfl, rfl, rfl, store_length hst, rfl⟩

theorem receiveInput_sameTable {s s' : State} {b : Bool}
    (h : receiveInput s = some (b, s')) : SameTable s s' := by
  unfold receiveInput at h
  split at h
  · cases hl : receiveInputLoop s s._device 0 with
    | none => simp [hl] at h
    | some r =>
      simp only [hl, Option.map_some', Option.some.injEq, Prod.mk.injEq] at h
      obtain ⟨_, rfl⟩ := h
      exact receiveInputLoop_sameTable _ _ _ _ _ (by rw [hl])
  · simp only [Option.some.injEq, Prod.mk.injEq] at h
    obtain ⟨_, rfl⟩ := h
    exact SameTable.refl s

theorem setSelectedFunctionLoop_sameTable (s : State) :
    ∀ (fuel ndx : Nat) (b : Bool) (s' : State),
      setSelectedFunctionLoop s fuel ndx = some (b, s') → SameTable s s' := by
  intro fuel
  induction fuel with
  | zero => intro ndx b s' h; simp [setSelectedFunctionLoop] at h
  | succ fuel ih =>
    intro ndx b s' h
    simp only [setSelectedFunctionLoop] at h
    split at h
    · split at h
      · cases h
      · simp only [Option.some.injEq, Prod.mk.injEq] at h
        obtain ⟨_, rfl⟩ := h
        exact SameTable.refl s
      · split at h
        · split at h
          · cases h
          · simp only [Option.some.injEq, Prod.mk.injEq] at h
            obtain ⟨_, rfl⟩ := h
            exact ⟨rfl, rfl, rfl, rfl, rfl, rfl⟩
        · exact ih _ _ _ h
    · simp only [Option.some.injEq, Prod.mk.injEq] at h
      obtain ⟨_, rfl⟩ := h
      exact SameTable.refl s

theorem setSelectedFunction_sameTable {s s' : State} {b : Bool}
    (h : setSelectedFunction s = some (b, s')) : SameTable s s' :=
  SameTable.trans (show SameTable s { s with _functionSelected := none } from
    ⟨rfl, rfl, rfl, rfl, rfl, rfl⟩)
    (setSelectedFunctionLoop_sameTable { s with _functionSelected := none } _ _ _ _ h)

theorem receiveCommandInput_sameTable {s s' : State} {b : Bool}
    (h : receiveCommandInput s = some (b, s')) : SameTable s s' := by
  unfold receiveCommandInput at h
  cases hr : receiveInput s with
  | none => simp [hr] at h
  | some r =>
    obtain ⟨b1, s1⟩ := r
    simp only [hr, Option.some_bind] at h
    have h1 := receiveInput_sameTable hr
    split at h
    · exact h1.trans (setSelectedFunction_sameTable h)
    · simp only [Option.some.injEq, Prod.mk.injEq] at h
      obtain ⟨_, rfl⟩ := h
      exact h1

theorem registerCommand_wf {s s' : State} (hwf : s.WF) {command : Option (List Byte)}
    {function : Option Handler} {mallocOk b : Bool}
    (hstep : registerCommand s command function mallocOk = some (b, s')) : s'.WF := by
  rcases registerCommand_cases s hwf command function mallocOk with hsame | hstored
  · rw [hsame] at hstep
    simp only [Option.some.injEq, Prod.mk.injEq] at hstep
    exact hstep.2 ▸ hwf
  · obtain ⟨mem, f, ndx, _, _, _, _, _, heq⟩ := hstored
    rw [heq] at hstep
    simp only [Option.some.injEq, Prod.mk.injEq] at hstep
    obtain ⟨w1, w2, w3, w4, w5⟩ := hwf
    rw [← hstep.2]
    exact ⟨w1, by simpa using w2, by simpa using w3, w4, w5⟩

theorem init_wf (device : List Byte) (N M : Nat) (hN : N < 256) (hM : M < 256) :
    (init device N M).WF := by
  simp [State.WF, init, hN, hM]

/-- Every reachable state is well formed and its table holds a list of entries
with pairwise distinct names in its first slots, all other slots empty. -/
theorem reachable_inv {s : State} (h : Reachable s) : s.WF ∧ ∃ entries, Holds s entries := by
  induction h with
  | init device N M hN hM => exact ⟨init_wf device N M hN hM, [], holds_init device N M⟩
  | arrive more _ ih =>
    obtain ⟨hwf, entries, hh⟩ := ih
    exact ⟨hwf, entries, hh⟩
  | registerCommand command function mallocOk _ hstep ih =>
    obtain ⟨hwf, entries, hh⟩ := ih
    exact ⟨registerCommand_wf hwf hstep, holds_registerCommand hwf hh hstep⟩
  | receiveInput _ hstep ih =>
    obtain ⟨hwf, entries, hh⟩ := ih
    have := receiveInput_sameTable hstep
    exact ⟨this.wf hwf, entries, this.holds hh⟩
  | receiveCommandInput _ hstep ih =>
    obtain ⟨hwf, entries, hh⟩ := ih
    have := receiveCommandInput_sameTable hstep
    exact ⟨this.wf hwf, entries, this.holds hh⟩

/-! ## The claims on the line reader -/

theorem cstr_append_zero_any (l r : List Byte) : cstr (l ++ 0 :: r) = cstr l := by
  induction l with
  | nil => simp [cstr]
  | cons c rest ih =>
    by_cases hc : c = 0
    · simp [cstr, hc]
    · simp [cstr, hc, ih]

/-- C1 (amended): on a well-formed state whose device holds a line shorter than
the buffer capacity, free of the end marker, followed by the end marker,
`receiveInput` returns true and marks the input valid; the bytes of the line
are in the buffer from index 0, followed by NUL; and when the line has no NUL
byte the buffer read as a C string is exactly the line. -/
theorem receiveInput_line_fits (s : State) (hwf : s.WF) (line rest : List Byte)
    (hlen : line.length < s._inputBufferSize) (hem : s._endMarker ∉ line)
    (hdev : s._device = line ++ s._endMarker :: rest) :
    ∃ s', receiveInput s = some (true, s') ∧ s'._inputValid = true ∧
      s'._inputBuffer.take (line.length + 1) = line ++ [0] ∧
      ((0 : Byte) ∉ line → getSerialBuffer s' = line) := by
  refine ⟨_, receiveInput_clean s hwf line rest hlen hem hdev, rfl, ?_, ?_⟩
  · show (line ++ 0 :: s._inputBuffer.drop (line.length + 1)).take (line.length + 1) = line ++ [0]
    rw [List.take_append_eq_append_take]
    simp
  · intro hnul
    exact cstr_append_zero line _ hnul

theorem receiveInput_line_fits_witness :
    ∃ s', receiveInput (init [111, 110, 10] 8 8) = some (true, s') ∧ s'._inputValid = true ∧
      s'._inputBuffer.take (([111, 110] : List Byte).length + 1) = [111, 110] ++ [0] ∧
      ((0 : Byte) ∉ ([111, 110] : List Byte) → getSerialBuffer s' = [111, 110]) :=
  receiveInput_line_fits (init [111, 110, 10] 8 8) (by decide) [111, 110] [] (by decide)
    (by decide) (by decide)

/-- C1 as stated fails on a line with a NUL byte: with capacity 8 and the
device holding the line `a`, NUL, `b` and the end marker, `receiveInput`
returns true with the input valid, and the buffer read as a C string is `a`,
not the line. -/
theorem receiveInput_line_with_nul :
    (init [97, 0, 98, 10] 8 8).WF ∧
    (receiveInput (init [97, 0, 98, 10] 8 8)).map
        (fun r => (r.1, r.2._inputValid, getSerialBuffer r.2)) = some (true, true, [97]) ∧
    ([97] : List Byte) ≠ [97, 0, 98] := by
  decide

/-- C3 (amended): on a well-formed state of capacity `N ≥ 1` whose device holds
at least `N` bytes, the first `N` of them free of the end marker,
`receiveInput` returns false and marks the input invalid; the buffer is the
first `N - 1` bytes of the input followed by NUL; and when none of these
`N - 1` bytes is NUL the buffer read as a C string is these bytes, of length
`N - 1`. -/
theorem receiveInput_line_too_long (s : State) (hwf : s.WF) (input : List Byte)
    (hN : 1 ≤ s._inputBufferSize) (hlen : s._inputBufferSize ≤ input.length)
    (hem : s._endMarker ∉ input.take s._inputBufferSize) (hdev : s._device = input) :
    ∃ s', receiveInput s = some (false, s') ∧ s'._inputValid = false ∧
      s'._inputBuffer = input.take (s._inputBufferSize - 1) ++ [0] ∧
      ((0 : Byte) ∉ input.take (s._inputBufferSize - 1) →
        getSerialBuffer s' = input.take (s._inputBufferSize - 1) ∧
        (getSerialBuffer s').length = s._inputBufferSize - 1) := by
  refine ⟨_, receiveInput_overflow s hwf input hN hlen hem hdev, rfl, rfl, ?_⟩
  intro hnul
  have h : getSerialBuffer { s with
      _inputBuffer := input.take (s._inputBufferSize - 1) ++ [0]
      _inputValid := false
      _device := [] } = input.take (s._inputBufferSize - 1) :=
    cstr_append_zero _ [] hnul
  refine ⟨h, ?_⟩
  rw [h, List.length_take]
  omega

theorem receiveInput_line_too_long_witness :
    ∃ s', receiveInput (init [111, 102, 102, 120, 10] 4 8) = some (false, s') ∧
      s'._inputValid = false ∧
      s'._inputBuffer = ([111, 102, 102, 120, 10] : List Byte).take (4 - 1) ++ [0] ∧
      ((0 : Byte) ∉ ([111, 102, 102, 120, 10] : List Byte).take (4 - 1) →
        getSerialBuffer s' = ([111, 102, 102, 120, 10] : List Byte).take (4 - 1) ∧
        (getSerialBuffer s').length = 4 - 1) :=
  receiveInput_line_too_long (init [111, 102, 102, 120, 10] 4 8) (by decide)
    [111, 102, 102, 120, 10] (by decide) (by decide) (by decide) (by decide)

/-- C3 as stated fails on an input with a NUL byte among its first `N - 1`
bytes: with capacity 8 and eight bytes without end marker, the second of them
NUL, `receiveInput` returns false with the input invalid, and the buffer read
as a C string has length 1, not 7. -/
theorem receiveInput_overflow_with_nul :
    (init [97, 0, 98, 99, 100, 101, 102, 103] 8 8).WF ∧
    (receiveInput (init [97, 0, 98, 99, 100, 101, 102, 103] 8 8)).map
        (fun r => (r.1, r.2._inputValid, r.2._inputBuffer, (getSerialBuffer r.2).length))
      = some (false, false, [97, 0, 98, 99, 100, 101, 102, 0], 1) := by
  decide

/-! ## The claims on the command table -/

theorem holds_slot {s : State} {entries : List (List Byte × Handler)} (h : Holds s entries)
    (k : Nat) (name : List Byte) :
    s._commandList[k]? = some (some name) ↔ ∃ hk : k < entries.length, entries[k].1 = name := by
  obtain ⟨_, hcl, _, _, _⟩ := h
  rw [hcl, tableSlots]
  by_cases hk : k < entries.length
  · rw [List.getElem?_append_left (by simpa using hk)]
    simp [hk]
  · rw [List.getElem?_append_right (by simpa using hk), List.getElem?_replicate]
    constructor
    · intro h2
      split at h2 <;> simp at h2
    · rintro ⟨hk2, _⟩
      exact absurd hk2 hk

theorem holds_handler {s : State} {entries : List (List Byte × Handler)} (h : Holds s entries)
    (k : Nat) (hk : k < entries.length) : s._functionList[k]? = some (some entries[k].2) := by
  obtain ⟨_, _, hfl, _, _⟩ := h
  rw [hfl, tableHandlers, List.getElem?_append_left (by simpa using hk)]
  simp [hk]

theorem holds_free {s : State} {entries : List (List Byte × Handler)} (h : Holds s entries)
    (k : Nat) (hk : entries.length ≤ k) (hM : k < s._commandListSize) :
    s._commandList[k]? = some none := by
  obtain ⟨_, hcl, _, _, _⟩ := h
  rw [hcl, tableSlots, List.getElem?_append_right (by simpa using hk), List.getElem?_replicate]
  simp
  omega

theorem holds_mem {s : State} {entries : List (List Byte × Handler)} (h : Holds s entries)
    (name : List Byte) : some name ∈ s._commandList ↔ name ∈ entries.map Prod.fst := by
  rw [List.mem_iff_getElem?]
  constructor
  · rintro ⟨k, hk⟩
    obtain ⟨hk2, he⟩ := (holds_slot h k name).1 hk
    exact List.mem_map.2 ⟨entries[k], List.getElem_mem _, he⟩
  · intro hin
    obtain ⟨e, he, hee⟩ := List.mem_map.1 hin
    obtain ⟨k, hk, hke⟩ := List.getElem_of_mem he
    exact ⟨k, (holds_slot h k name).2 ⟨hk, by rw [hke, hee]⟩⟩

theorem reachable_tableOn : Reachable tableOn :=
  @Reachable.registerCommand (init [] 8 2) tableOn true (some [111, 110]) (some 1) true
    (Reachable.init [] 8 2 (by decide) (by decide)) (by decide)

/-- C10: in every reachable state the live slots of the command table form a
gap-free prefix (below a live slot every slot is live) and no two live slots
hold the same name. -/
theorem table_invariant (s : State) (h : Reachable s) :
    (∀ (k : Nat) (name : List Byte), s._commandList[k]? = some (some name) →
      ∀ j, j < k → ∃ name', s._commandList[j]? = some (some name')) ∧
    (∀ (i j : Nat) (name : List Byte), s._commandList[i]? = some (some name) →
      s._commandList[j]? = some (some name) → i = j) := by
  obtain ⟨_, entries, hh⟩ := reachable_inv h
  constructor
  · intro k name hk j hj
    obtain ⟨hk2, _⟩ := (holds_slot hh k name).1 hk
    exact ⟨entries[j].1, (holds_slot hh j _).2 ⟨by omega, rfl⟩⟩
  · intro i j name hi hj
    obtain ⟨hi2, hie⟩ := (holds_slot hh i name).1 hi
    obtain ⟨hj2, hje⟩ := (holds_slot hh j name).1 hj
    have hnd := hh.2.2.2.1
    have hi3 : i < (entries.map Prod.fst).length := by simpa using hi2
    have hj3 : j < (entries.map Prod.fst).length := by simpa using hj2
    have heq : (entries.map Prod.fst)[i] = (entries.map Prod.fst)[j] := by
      simp [hie, hje]
    exact (@List.Nodup.getElem_inj_iff _ _ hnd i hi3 j hj3).1 heq

theorem table_invariant_witness :
    (∀ (k : Nat) (name : List Byte), tableOn._commandList[k]? = some (some name) →
      ∀ j, j < k → ∃ name', tableOn._commandList[j]? = some (some name')) ∧
    (∀ (i j : Nat) (name : List Byte), tableOn._commandList[i]? = some (some name) →
      tableOn._commandList[j]? = some (some name) → i = j) :=
  table_invariant tableOn reachable_tableOn

/-- C6: on a reachable table, `registerCommand` with a name that is already
registered returns false and leaves the state, so every slot, unchanged,
whatever the handler (null included) and whether or not memory is left. -/
theorem registerCommand_duplicate (s : State) (h : Reachable s) (mem : List Byte)
    (hreg : some (cstr mem) ∈ s._commandList) (function : Option Handler) (mallocOk : Bool) :
    registerCommand s (some mem) function mallocOk = some (false, s) := by
  obtain ⟨_, entries, hh⟩ := reachable_inv h
  exact (registerCommand_holds hh mem).1 ((holds_mem hh _).1 hreg) function mallocOk

/-- C8: when every slot of a well-formed table is taken, `registerCommand`
returns false and leaves the state unchanged, whatever the name, the handler
and the outcome of the allocation. -/
theorem registerCommand_full (s : State) (hwf : s.WF)
    (hfull : ∀ slot ∈ s._commandList, slot ≠ none) (command : Option (List Byte))
    (function : Option Handler) (mallocOk : Bool) :
    registerCommand s command function mallocOk = some (false, s) := by
  rcases registerCommand_cases s hwf command function mallocOk with hsame | hstored
  · exact hsame
  · obtain ⟨mem, f, ndx, _, _, _, hscan, hlt, _⟩ := hstored
    rcases scanSlots_full mem s._commandList 0 hfull with h1 | h1
    · rw [h1] at hscan; cases hscan
    · rw [h1] at hscan
      injection hscan with hscan
      have := hwf.2.1
      omega

theorem registerCommand_duplicate_witness :
    registerCommand tableOn (some [111, 110]) (some 7) true = some (false, tableOn) :=
  registerCommand_duplicate tableOn reachable_tableOn [111, 110] (by decide) (some 7) true

theorem registerCommand_full_witness :
    registerCommand tableFull (some [111, 102, 102]) (some 2) true = some (false, tableFull) :=
  registerCommand_full tableFull (by decide) (by decide) (some [111, 102, 102]) (some 2) true

theorem holds_room {s : State} {entries : List (List Byte × Handler)} (h : Holds s entries) :
    none ∈ s._commandList ↔ entries.length < s._commandListSize := by
  constructor
  · intro hin
    obtain ⟨k, hk⟩ := List.mem_iff_getElem?.1 hin
    have hlen := (holds_wf_table h).1
    have hk2 : k < s._commandList.length := by
      by_contra hc
      rw [List.getElem?_eq_none (by omega)] at hk
      cases hk
    by_contra hc
    have hke : k < entries.length := by omega
    have := (holds_slot h k entries[k].1).2 ⟨hke, rfl⟩
    rw [hk] at this
    cases this
  · intro hlt
    exact List.mem_iff_getElem?.2 ⟨entries.length, holds_free h _ (Nat.le_refl _) hlt⟩

/-- C9 (amended): `registerCommand` refuses a null name pointer in every state,
and treats the empty name like any other name: on a reachable table it returns
false and leaves the state unchanged when the handler is null, the empty name is
registered already, no slot is free or the allocation fails, and otherwise it
returns true and stores the empty name with its handler in the first free slot. -/
theorem registerCommand_empty_name (s : State) (h : Reachable s) (mem : List Byte)
    (hmem : cstr mem = []) (function : Option Handler) (mallocOk : Bool) :
    registerCommand s none function mallocOk = some (false, s) ∧
    (function = none ∨ some [] ∈ s._commandList ∨ none ∉ s._commandList ∨ mallocOk = false →
      registerCommand s (some mem) function mallocOk = some (false, s)) ∧
    (∀ f, function = some f → some [] ∉ s._commandList → none ∈ s._commandList →
      mallocOk = true →
      ∃ ndx, s._commandList[ndx]? = some none ∧
        (∀ j, j < ndx → s._commandList[j]? ≠ some none) ∧
        registerCommand s (some mem) function mallocOk = some (true, { s with
          _commandList := s._commandList.set ndx (some [])
          _functionList := s._functionList.set ndx (some f) })) := by
  obtain ⟨hwf, entries, hh⟩ := reachable_inv h
  obtain ⟨hin, hnin⟩ := scanSlots_holds hh mem
  rw [hmem] at hin hnin
  refine ⟨registerCommand_null_command s function mallocOk, ?_, ?_⟩
  · intro hcase
    rcases registerCommand_cases s hwf (some mem) function mallocOk with hsame | hstored
    · exact hsame
    · obtain ⟨mem', f, ndx, hm, hf, hok, hscan, hlt, _⟩ := hstored
      injection hm with hm
      subst hm
      exfalso
      rcases hcase with h1 | h1 | h1 | h1
      · rw [h1] at hf; cases hf
      · rw [hin ((holds_mem hh _).1 h1)] at hscan; cases hscan
      · by_cases hreg : ([] : List Byte) ∈ entries.map Prod.fst
        · rw [hin hreg] at hscan; cases hscan
        · rw [hnin hreg] at hscan
          injection hscan with hscan
          exact h1 ((holds_room hh).2 (by omega))
      · rw [h1] at hok; cases hok
  · intro f hf hfresh hroom hok
    subst hf
    subst hok
    have hfresh2 : cstr mem ∉ entries.map Prod.fst := by
      rw [hmem]; exact fun hc => hfresh ((holds_mem hh _).2 hc)
    have hlt := (holds_room hh).1 hroom
    refine ⟨entries.length, holds_free hh _ (Nat.le_refl _) hlt, ?_, ?_⟩
    · intro j hj hc
      have := (holds_slot hh j entries[j].1).2 ⟨hj, rfl⟩
      rw [hc] at this
      cases this
    · have := (registerCommand_holds hh mem).2 hfresh2 hlt f
      rw [hmem] at this
      exact this

theorem registerCommand_empty_name_witness :
    registerCommand tableOn none (some 2) true = some (false, tableOn) ∧
    ((some 2 : Option Handler) = none ∨ some [] ∈ tableOn._commandList ∨
        none ∉ tableOn._commandList ∨ true = false →
      registerCommand tableOn (some [0]) (some 2) true = some (false, tableOn)) ∧
    (∀ f, (some 2 : Option Handler) = some f → some [] ∉ tableOn._commandList →
      none ∈ tableOn._commandList → true = true →
      ∃ ndx, tableOn._commandList[ndx]? = some none ∧
        (∀ j, j < ndx → tableOn._commandList[j]? ≠ some none) ∧
        registerCommand tableOn (some [0]) (some 2) true = some (true, { tableOn with
          _commandList := tableOn._commandList.set ndx (some [])
          _functionList := tableOn._functionList.set ndx (some f) })) :=
  registerCommand_empty_name tableOn reachable_tableOn [0] (by decide) (some 2) true

/-- C9 as stated fails: on the freshly constructed table `registerCommand` with
the empty name and a non-null handler returns true and stores the empty name
in slot 0. -/
theorem empty_name_is_registered :
    registerCommand (init [] 32 8) (some []) (some 1) true
      = some (true, { init [] 32 8 with
          _commandList := some [] :: List.replicate 7 none
          _functionList := some 1 :: List.replicate 7 none }) ∧
    (init [] 32 8)._commandList ≠ some [] :: List.replicate 7 none := by
  decide

theorem registerAll_holds (cmds : List (List Byte × Handler)) :
    ∀ (s : State) (entries : List (List Byte × Handler)), Holds s entries →
      entries.length + cmds.length ≤ s._commandListSize →
      (entries.map Prod.fst ++ cmds.map (fun c => cstr c.1)).Nodup →
      registerAll s cmds = some (List.replicate cmds.length true, { s with
        _commandList := tableSlots s._commandListSize
          (entries ++ cmds.map (fun c => (cstr c.1, c.2)))
        _functionList := tableHandlers s._commandListSize
          (entries ++ cmds.map (fun c => (cstr c.1, c.2))) }) := by
  induction cmds with
  | nil =>
    intro s entries hh _ _
    obtain ⟨_, hcl, hfl, _, _⟩ := hh
    simp only [registerAll, List.length_nil, List.replicate_zero, List.map_nil, List.append_nil,
      ← hcl, ← hfl]
  | cons c rest ih =>
    intro s entries hh hlen hnd
    simp only [List.length_cons] at hlen
    have hfresh : cstr c.1 ∉ entries.map Prod.fst := by
      intro hc
      rw [List.map_cons, List.nodup_append] at hnd
      exact hnd.2.2 hc (List.mem_cons_self _ _)
    have hstep := (registerCommand_holds hh c.1).2 hfresh (by omega) c.2
    have hh1 := holds_append hh c.1 c.2 hfresh (by omega)
    have hrec := ih _ _ hh1 (by simp only [List.length_append, List.length_singleton]; omega)
      (by simpa [List.append_assoc] using hnd)
    simp only [List.append_assoc, List.singleton_append] at hrec
    simp only [registerAll, hstep, Option.some_bind, hrec, Option.map_some', List.length_cons,
      List.replicate_succ, List.map_cons]

/-- C7 (amended): for every list of at most `commandListSize` commands whose
names are pairwise distinct C strings, registering them in order on a freshly
constructed table, each allocation of a name copy succeeding, returns true
every time; after the first `j` registrations the slots `0 .. j-1` hold the
copies of the first `j` names with their handlers, in order, and every other
slot is empty, so that registration `j` fills slot `j`, the first empty one. -/
theorem registerAll_fresh_names (device : List Byte) (N M : Nat)
    (cmds : List (List Byte × Handler)) (hk : cmds.length ≤ M)
    (hd : (cmds.map (fun c => cstr c.1)).Nodup) (j : Nat) (hj : j ≤ cmds.length) :
    registerAll (init device N M) (cmds.take j) = some (List.replicate j true,
      { init device N M with
        _commandList := tableSlots M ((cmds.take j).map (fun c => (cstr c.1, c.2)))
        _functionList := tableHandlers M ((cmds.take j).map (fun c => (cstr c.1, c.2))) }) := by
  have hlen : (cmds.take j).length = j := by simp [List.length_take, hj]
  have hnd : ((cmds.take j).map (fun c => cstr c.1)).Nodup := by
    rw [← List.take_append_drop j cmds, List.map_append] at hd
    exact (List.nodup_append.1 hd).1
  have := registerAll_holds (cmds.take j) (init device N M) [] (holds_init device N M)
    (by simp only [List.length_nil, hlen]; show 0 + j ≤ M; omega) (by simpa using hnd)
  rw [hlen] at this
  simpa using this

theorem registerAll_fresh_names_witness :
    registerAll (init [] 8 2) (([([111, 110], 1), ([111, 102, 102], 2)] :
        List (List Byte × Handler)).take 2) = some (List.replicate 2 true,
      { init [] 8 2 with
        _commandList := tableSlots 2
          ((([([111, 110], 1), ([111, 102, 102], 2)] : List (List Byte × Handler)).take 2).map
            (fun c => (cstr c.1, c.2)))
        _functionList := tableHandlers 2
          ((([([111, 110], 1), ([111, 102, 102], 2)] : List (List Byte × Handler)).take 2).map
            (fun c => (cstr c.1, c.2))) }) :=
  registerAll_fresh_names [] 8 2 [([111, 110], 1), ([111, 102, 102], 2)] (by decide)
    (by decide) 2 (by decide)

/-- C7 as stated fails when the allocation of the name copy fails: on the
freshly constructed table `registerCommand` with the new non-empty name `"on"`
and a non-null handler returns false and leaves the table empty. -/
theorem registerCommand_no_memory_refused :
    registerCommand (init [] 32 8) (some [111, 110]) (some 1) false
      = some (false, init [] 32 8) := by
  decide

/-! ## The claims on the dispatcher -/

theorem setSelectedFunction_eq (s : State) (hv : s._inputValid = true)
    (hc : s._commandList.length = s._commandListSize)
    (hf : s._functionList.length = s._commandListSize) :
    setSelectedFunction s
      = some (match findSlot s._inputBuffer s._commandList 0 with
              | none => (false, { s with _functionSelected := none })
              | some i => (true, { s with _functionSelected := s._functionList.getD i none })) := by
  have := setSelectedFunctionLoop_eq { s with _functionSelected := none } hv hc hf
    (s._commandListSize + 1) 0 (by simp)
  rw [List.drop_zero] at this
  exact this

theorem findSlot_congr (a b : List Byte) (h : cstr a = cstr b)
    (l : List (Option (List Byte))) : ∀ ndx, findSlot a l ndx = findSlot b l ndx := by
  induction l with
  | nil => intro ndx; rfl
  | cons slot rest ih =>
    intro ndx
    cases slot with
    | none => rfl
    | some name => simp only [findSlot, h, ih]

theorem findSlot_holds {s : State} {entries : List (List Byte × Handler)} (h : Holds s entries)
    (buf : List Byte) :
    (cstr buf ∉ entries.map Prod.fst → findSlot buf s._commandList 0 = none) ∧
    (∀ i (hi : i < entries.length), entries[i].1 = cstr buf →
      findSlot buf s._commandList 0 = some i) := by
  constructor
  · intro hnin
    apply findSlot_none
    intro name hname heq
    have hin := (holds_mem h name).1 hname
    obtain ⟨e, he, hee⟩ := List.mem_map.1 hin
    apply hnin
    rw [heq, ← hee, holds_name_eq h he]
    exact List.mem_map_of_mem _ he
  · intro i hi heq
    obtain ⟨_, hcl, _, hnd, _⟩ := id h
    have hsplit : entries = entries.take i ++ entries[i] :: entries.drop (i + 1) := by
      rw [← List.drop_eq_getElem_cons hi, List.take_append_drop]
    have hpre : ∀ e ∈ entries.take i, cstr buf ≠ cstr e.1 := by
      intro e he hce
      rw [hsplit, List.map_append, List.map_cons, List.nodup_append] at hnd
      have he2 : e ∈ entries := List.mem_of_mem_take he
      rw [holds_name_eq h he2, ← heq] at hce
      exact hnd.2.2 (List.mem_map_of_mem _ he) (by rw [hce]; exact List.mem_cons_self _ _)
    have hlen : (entries.take i).length = i := by
      simp [List.length_take]; omega
    have hhead : cstr buf = cstr entries[i].1 := by
      rw [holds_name_eq h (List.getElem_mem _), heq]
    rw [hcl, tableSlots]
    conv_lhs => rw [hsplit]
    rw [List.map_append, List.append_assoc, findSlot_skip buf _ _ 0 hpre, hlen]
    simp [findSlot, hhead]

theorem receiveCommandInput_clean (s : State) (hwf : s.WF) (line rest : List Byte)
    (hlen : line.length < s._inputBufferSize) (hem : s._endMarker ∉ line)
    (hdev : s._device = line ++ s._endMarker :: rest) :
    receiveCommandInput s
      = some (match findSlot line s._commandList 0 with
              | none => (false, { s with
                  _inputBuffer := line ++ 0 :: s._inputBuffer.drop (line.length + 1)
                  _inputValid := true
                  _device := rest
                  _functionSelected := none })
              | some i => (true, { s with
                  _inputBuffer := line ++ 0 :: s._inputBuffer.drop (line.length + 1)
                  _inputValid := true
                  _device := rest
                  _functionSelected := s._functionList.getD i none })) := by
  have h1 := receiveInput_clean s hwf line rest hlen hem hdev
  have h2 := setSelectedFunction_eq { s with
      _inputBuffer := line ++ 0 :: s._inputBuffer.drop (line.length + 1)
      _inputValid := true
      _device := rest } rfl hwf.2.1 hwf.2.2.1
  have h3 := findSlot_congr (line ++ 0 :: s._inputBuffer.drop (line.length + 1)) line
    (cstr_append_zero_any _ _) s._commandList 0
  simp only [h3] at h2
  simp only [receiveCommandInput, h1, Option.some_bind, if_true, h2]

theorem receiveCommandInput_overflow (s : State) (hwf : s.WF) (input : List Byte)
    (hN : 1 ≤ s._inputBufferSize) (hlen : s._inputBufferSize ≤ input.length)
    (hem : s._endMarker ∉ input.take s._inputBufferSize) (hdev : s._device = input) :
    receiveCommandInput s = some (false, { s with
      _inputBuffer := input.take (s._inputBufferSize - 1) ++ [0]
      _inputValid := false
      _device := [] }) := by
  have h1 := receiveInput_overflow s hwf input hN hlen hem hdev
  simp [receiveCommandInput, h1]

/-- C2 (amended): on a reachable table, when the device holds a line shorter
than the buffer capacity, free of the end marker and of NUL, followed by the
end marker, `receiveCommandInput` returns true if and only if the line is
exactly a registered name; and when it returns true the name is in some slot,
the handler selected is the one in that slot, and `runSelectedCommand` then
invokes exactly that handler, once. -/
theorem receiveCommandInput_selects (s : State) (h : Reachable s) (line rest : List Byte)
    (hlen : line.length < s._inputBufferSize) (hem : s._endMarker ∉ line)
    (hnul : (0 : Byte) ∉ line) (hdev : s._device = line ++ s._endMarker :: rest) :
    ∃ b s', receiveCommandInput s = some (b, s') ∧
      (b = true ↔ some line ∈ s._commandList) ∧
      (b = true → ∃ (i : Nat) (f : Handler), s._commandList[i]? = some (some line) ∧
        s._functionList[i]? = some (some f) ∧ s'._functionSelected = some f ∧
        runSelectedCommand s' = [f]) := by
  obtain ⟨hwf, entries, hh⟩ := reachable_inv h
  have hrun := receiveCommandInput_clean s hwf line rest hlen hem hdev
  obtain ⟨hmiss, hhit⟩ := findSlot_holds hh line
  rw [cstr_of_not_mem line hnul] at hmiss hhit
  by_cases hreg : line ∈ entries.map Prod.fst
  · obtain ⟨e, he, hee⟩ := List.mem_map.1 hreg
    obtain ⟨i, hi, hie⟩ := List.getElem_of_mem he
    have hname : entries[i].1 = line := by rw [hie, hee]
    rw [hhit i hi hname] at hrun
    have hfun := holds_handler hh i hi
    have hget : s._functionList.getD i none = some entries[i].2 := by
      rw [List.getD_eq_getElem?_getD, hfun]; rfl
    refine ⟨true, _, hrun, ⟨fun _ => (holds_mem hh line).2 hreg, fun _ => rfl⟩, fun _ => ?_⟩
    refine ⟨i, entries[i].2, (holds_slot hh i line).2 ⟨hi, hname⟩, hfun, hget, ?_⟩
    simp [runSelectedCommand, hfun]
  · rw [hmiss hreg] at hrun
    refine ⟨false, _, hrun, ⟨fun hc => (by cases hc), fun hc => ?_⟩, fun hc => (by cases hc)⟩
    exact absurd ((holds_mem hh line).1 hc) hreg

theorem receiveCommandInput_selects_witness :
    ∃ b s', receiveCommandInput { tableOn with _device := [111, 110, 10] } = some (b, s') ∧
      (b = true ↔ some [111, 110] ∈ ({ tableOn with _device := [111, 110, 10] } : State)._commandList) ∧
      (b = true → ∃ (i : Nat) (f : Handler),
        ({ tableOn with _device := [111, 110, 10] } : State)._commandList[i]? = some (some [111, 110]) ∧
        ({ tableOn with _device := [111, 110, 10] } : State)._functionList[i]? = some (some f) ∧
        s'._functionSelected = some f ∧ runSelectedCommand s' = [f]) :=
  receiveCommandInput_selects { tableOn with _device := [111, 110, 10] }
    (Reachable.arrive [111, 110, 10] reachable_tableOn) [111, 110] [] (by decide) (by decide)
    (by decide) (by decide)

/-- C2 as stated fails on a line with a NUL byte: with `"on"` registered under
handler 1 (by one `registerCommand` call on a fresh table), the line
`o`, `n`, NUL, `x` is not a registered name, yet `receiveCommandInput` returns
true and `runSelectedCommand` then runs handler 1. -/
theorem receiveCommandInput_nul_truncates :
    registerCommand (init [] 8 2) (some [111, 110]) (some 1) true = some (true, tableOn) ∧
    (receiveCommandInput { tableOn with _device := [111, 110, 0, 120, 10] }).map
        (fun r => (r.1, runSelectedCommand r.2)) = some (true, [1]) ∧
    some [111, 110, 0, 120] ∉ tableOn._commandList := by
  decide

/-- C5 (amended): in every well-formed state of capacity at least 1, whatever
handler is selected, when `receiveCommandInput` reads a line that overflows the
buffer (at least `_inputBufferSize` bytes, no end marker among the first
`_inputBufferSize`) or a complete line (shorter than the capacity, free of the
end marker, followed by it) whose text up to its first NUL byte, the whole
line when it has none, is the name in no slot of the table, it returns false
and `runSelectedCommand` then invokes no handler. -/
theorem receiveCommandInput_rejects (s : State) (hwf : s.WF) (hN : 1 ≤ s._inputBufferSize)
    (hcase :
      (s._inputBufferSize ≤ s._device.length ∧
        s._endMarker ∉ s._device.take s._inputBufferSize) ∨
      (∃ line rest, s._device = line ++ s._endMarker :: rest ∧
        line.length < s._inputBufferSize ∧ s._endMarker ∉ line ∧
        ∀ name, some name ∈ s._commandList → cstr line ≠ cstr name)) :
    ∃ s', receiveCommandInput s = some (false, s') ∧ runSelectedCommand s' = [] := by
  rcases hcase with ⟨hlen, hem⟩ | ⟨line, rest, hdev, hlen, hem, hmiss⟩
  · exact ⟨_, receiveCommandInput_overflow s hwf s._device hN hlen hem rfl,
      by simp [runSelectedCommand]⟩
  · have hrun := receiveCommandInput_clean s hwf line rest hlen hem hdev
    rw [findSlot_none line s._commandList 0 hmiss] at hrun
    exact ⟨_, hrun, by simp [runSelectedCommand]⟩

theorem receiveCommandInput_rejects_witness :
    ∃ s', receiveCommandInput { tableOn with
        _device := [120, 10], _inputValid := true, _functionSelected := some 1 }
      = some (false, s') ∧ runSelectedCommand s' = [] :=
  receiveCommandInput_rejects { tableOn with
      _device := [120, 10], _inputValid := true, _functionSelected := some 1 }
    (by decide) (by decide)
    (Or.inr ⟨[120], [], by decide, by decide, by decide, fun name hname => by
      have hn : name = [111, 110] := by simpa [tableOn, init] using hname
      subst hn
      decide⟩)

/-- C5 as stated fails on a complete line with a NUL byte: with `"on"` and
`"off"` registered and the handler of `"off"` selected by an earlier line, the
complete line `o`, `n`, NUL, `x` is the name in no slot, yet
`receiveCommandInput` returns true and `runSelectedCommand` then runs handler 1,
the handler of `"on"`. -/
theorem receiveCommandInput_nul_line_accepted :
    some [111, 110, 0, 120] ∉ tableOnOff._commandList ∧
    (receiveCommandInput { tableOnOff with
        _device := [111, 110, 0, 120, 10], _inputValid := true, _functionSelected := some 2 }).map
      (fun r => (r.1, r.2._functionSelected, runSelectedCommand r.2))
      = some (true, some 1, [1]) := by
  decide

/-- C4 fails on the code: after `"on"` is registered under handler 1 and the
line `on` has been received (`receiveCommandInput` returns true), a second
`receiveCommandInput` that finds the device empty returns false and leaves
`_inputValid` and `_functionSelected` as they were, so that
`runSelectedCommand` runs handler 1 although the most recent receive call
returned false. -/
theorem runSelectedCommand_after_no_data :
    ((registerCommand (init [111, 110, 10] 8 2) (some [111, 110]) (some 1) true).bind fun r1 =>
      (receiveCommandInput r1.2).bind fun r2 =>
        (receiveCommandInput r2.2).map fun r3 =>
          (r1.1, r2.1, r2.2._device, r3.1, runSelectedCommand r3.2))
      = some (true, true, [], false, [1]) := by
  decide

/-! ## More on the line reader -/

theorem receiveInputLoop_dry (part : List Byte) :
    ∀ (s : State) (ndx : Nat),
      s._endMarker ∉ part → ndx + part.length < s._inputBuffer.length →
      s._inputBuffer.length = s._inputBufferSize → s._inputBufferSize < 256 →
      receiveInputLoop s part ndx =
        some (false, { s with
          _inputBuffer := s._inputBuffer.take ndx ++ part ++
            s._inputBuffer.drop (ndx + part.length)
          _device := [] }) := by
  induction part with
  | nil =>
    intro s ndx _ _ _ _
    simp [receiveInputLoop]
  | cons c cs ih =>
    intro s ndx hem hlen hsz h256
    simp only [List.mem_cons, not_or] at hem
    simp only [List.length_cons] at hlen
    have hc : c ≠ s._endMarker := fun e => hem.1 e.symm
    have hlt : (ndx : Int) < (s._inputBufferSize : Int) - 1 := by omega
    have hnd : ndx < s._inputBuffer.length := by omega
    have hmod : (ndx + 1) % 256 = ndx + 1 := Nat.mod_eq_of_lt (by omega)
    have hlen2 : (s._inputBuffer.take ndx ++ c :: s._inputBuffer.drop (ndx + 1)).length
        = s._inputBuffer.length := by
      simp; omega
    have key := ih { s with _inputBuffer := s._inputBuffer.take ndx ++ c :: s._inputBuffer.drop (ndx + 1) }
      (ndx + 1) hem.2 (by simp only [hlen2]; omega) (by simp only [hlen2]; exact hsz) h256
    dsimp only at key
    simp only [receiveInputLoop, ne_eq, hc, not_false_eq_true, hlt, and_self,
      if_true, store_eq _ _ _ hnd, Option.some_bind, hmod]
    rw [key]
    have e1 : (s._inputBuffer.take ndx ++ c :: s._inputBuffer.drop (ndx + 1)).take (ndx + 1)
        = s._inputBuffer.take ndx ++ [c] := by
      rw [List.take_append_eq_append_take]
      simp [List.length_take, Nat.min_eq_left (Nat.le_of_lt hnd)]
    have e2 : (s._inputBuffer.take ndx ++ c :: s._inputBuffer.drop (ndx + 1)).drop
        (ndx + 1 + cs.length) = s._inputBuffer.drop (ndx + (cs.length + 1)) := by
      rw [List.drop_append_eq_append_drop]
      have h1 : (List.take ndx s._inputBuffer).length = ndx := by
        simp [List.length_take, Nat.min_eq_left (Nat.le_of_lt hnd)]
      have h2 : ndx + 1 + cs.length - ndx = cs.length + 1 := by omega
      rw [h1, h2, List.drop_succ_cons, List.drop_drop, List.drop_eq_nil_of_le (by omega)]
      simp only [List.nil_append]
      congr 1
      omega
    simp [e1, e2]

/-- What `receiveInput` does when the device runs dry before an end marker and
before the buffer is full: the bytes are in place, nothing else is written. -/
theorem receiveInput_dry (s : State) (hwf : s.WF) (part : List Byte)
    (hlen : part.length < s._inputBufferSize) (hem : s._endMarker ∉ part)
    (hdev : s._device = part) :
    receiveInput s = some (false, { s with
      _inputBuffer := part ++ s._inputBuffer.drop part.length
      _device := [] }) := by
  obtain ⟨hb, _, _, h256, _⟩ := hwf
  cases part with
  | nil =>
    have : s = { s with _inputBuffer := s._inputBuffer, _device := [] } := by
      cases s; simp_all
    simp only [receiveInput, hdev, List.length_nil, gt_iff_lt, Nat.lt_irrefl, if_false,
      Bool.false_and, List.nil_append, List.drop_zero]
    rw [← this]
  | cons c cs =>
    have key := receiveInputLoop_dry (c :: cs) s 0 hem (by omega) hb h256
    simp only [List.take_zero, List.nil_append, Nat.zero_add] at key
    simp [receiveInput, hdev, key]

/-- The loop of `receiveInput` entered with `ndx` inside the buffer returns. -/
theorem receiveInputLoop_total (dev : List Byte) :
    ∀ (s : State) (ndx : Nat), ndx < s._inputBuffer.length →
      s._inputBuffer.length = s._inputBufferSize → s._inputBufferSize < 256 →
      ∃ r, receiveInputLoop s dev ndx = some r := by
  induction dev with
  | nil => intro s ndx _ _ _; exact ⟨_, rfl⟩
  | cons rc rest ih =>
    intro s ndx hnd hsz h256
    simp only [receiveInputLoop]
    split
    · rename_i hcond
      have hmod : (ndx + 1) % 256 = ndx + 1 := Nat.mod_eq_of_lt (by omega)
      simp only [store_eq _ _ _ hnd, Option.some_bind, hmod]
      apply ih
      · simp; omega
      · simp; omega
      · exact h256
    · simp only [store_eq _ _ _ hnd, Option.some_bind, drainDevice_eq, Option.map_some']
      split <;> exact ⟨_, rfl⟩

theorem writeIndices_bound (dev : List Byte) :
    ∀ (s : State) (ndx : Nat), ndx < s._inputBufferSize → s._inputBufferSize < 256 →
      ∀ i ∈ writeIndices s dev ndx, i ≤ s._inputBufferSize - 1 := by
  induction dev with
  | nil => intro s ndx _ _ i hi; simp [writeIndices] at hi
  | cons rc rest ih =>
    intro s ndx hnd h256 i hi
    simp only [writeIndices] at hi
    split at hi
    · rename_i hcond
      have hmod : (ndx + 1) % 256 = ndx + 1 := Nat.mod_eq_of_lt (by omega)
      rw [hmod] at hi
      rcases List.mem_cons.1 hi with rfl | hi
      · omega
      · exact ih s (ndx + 1) (by omega) h256 i hi
    · simp only [List.mem_singleton] at hi
      omega

/-- The last byte of the buffer stays NUL through the loop of `receiveInput`. -/
theorem receiveInputLoop_last (dev : List Byte) :
    ∀ (s : State) (ndx : Nat) (b : Bool) (s' : State),
      receiveInputLoop s dev ndx = some (b, s') →
      s._inputBuffer[s._inputBufferSize - 1]? = some 0 →
      s'._inputBuffer[s._inputBufferSize - 1]? = some 0 := by
  induction dev with
  | nil =>
    intro s ndx b s' h h0
    simp only [receiveInputLoop, Option.some.injEq, Prod.mk.injEq] at h
    obtain ⟨_, rfl⟩ := h
    exact h0
  | cons rc rest ih =>
    intro s ndx b s' h h0
    simp only [receiveInputLoop] at h
    split at h
    · rename_i hcond
      cases hst : store s._inputBuffer ndx rc with
      | none => simp [hst] at h
      | some buf =>
        simp only [hst, Option.some_bind] at h
        have hbuf : buf[s._inputBufferSize - 1]? = some 0 := by
          unfold store at hst
          split at hst
          · simp only [Option.some.injEq] at hst
            subst hst
            rw [List.getElem?_set_ne (by omega)]
            exact h0
          · cases hst
        exact ih { s with _inputBuffer := buf } _ _ _ h hbuf
    · cases hst : store s._inputBuffer ndx 0 with
      | none => simp [hst] at h
      | some buf =>
        simp only [hst, Option.some_bind] at h
        have hbuf : buf[s._inputBufferSize - 1]? = some 0 := by
          unfold store at hst
          split at hst
          · rename_i hlt
            simp only [Option.some.injEq] at hst
            subst hst
            by_cases hx : ndx = s._inputBufferSize - 1
            · rw [← hx, List.getElem?_set_self hlt]
            · rw [List.getElem?_set_ne hx]
              exact h0
          · cases hst
        split at h
        · cases hd : drainDevice (rest.length + 1) rest with
          | none => simp [hd] at h
          | some dev =>
            simp only [hd, Option.map_some', Option.some.injEq, Prod.mk.injEq] at h
            obtain ⟨_, rfl⟩ := h
            exact hbuf
        · simp only [Option.some.injEq, Prod.mk.injEq] at h
          obtain ⟨_, rfl⟩ := h
          exact hbuf

theorem setSelectedFunctionLoop_state (s : State) :
    ∀ (fuel ndx : Nat) (b : Bool) (s' : State),
      setSelectedFunctionLoop s fuel ndx = some (b, s') →
      ∃ f, s' = { s with _functionSelected := f } := by
  intro fuel
  induction fuel with
  | zero => intro ndx b s' h; simp [setSelectedFunctionLoop] at h
  | succ fuel ih =>
    intro ndx b s' h
    simp only [setSelectedFunctionLoop] at h
    split at h
    · split at h
      · cases h
      · simp only [Option.some.injEq, Prod.mk.injEq] at h
        obtain ⟨_, rfl⟩ := h
        exact ⟨s._functionSelected, rfl⟩
      · split at h
        · split at h
          · cases h
          · simp only [Option.some.injEq, Prod.mk.injEq] at h
            obtain ⟨_, rfl⟩ := h
            exact ⟨_, rfl⟩
        · exact ih _ _ _ h
    · simp only [Option.some.injEq, Prod.mk.injEq] at h
      obtain ⟨_, rfl⟩ := h
      exact ⟨s._functionSelected, rfl⟩

theorem setSelectedFunction_state {s s' : State} {b : Bool}
    (h : setSelectedFunction s = some (b, s')) : ∃ f, s' = { s with _functionSelected := f } := by
  obtain ⟨f, hf⟩ := setSelectedFunctionLoop_state { s with _functionSelected := none } _ _ _ _ h
  exact ⟨f, hf⟩

theorem setSelectedFunction_invalid (s : State) (hv : s._inputValid = false) :
    setSelectedFunction s = some (false, { s with _functionSelected := none }) := by
  simp [setSelectedFunction, setSelectedFunctionLoop, hv]

theorem receiveInput_last {s s' : State} {b : Bool} (h : receiveInput s = some (b, s'))
    (h0 : s._inputBuffer[s._inputBufferSize - 1]? = some 0) :
    s'._inputBuffer[s._inputBufferSize - 1]? = some 0 := by
  unfold receiveInput at h
  split at h
  · cases hl : receiveInputLoop s s._device 0 with
    | none => simp [hl] at h
    | some r =>
      simp only [hl, Option.map_some', Option.some.injEq, Prod.mk.injEq] at h
      obtain ⟨_, rfl⟩ := h
      exact receiveInputLoop_last _ _ _ _ _ (by rw [hl]) h0
  · simp only [Option.some.injEq, Prod.mk.injEq] at h
    obtain ⟨_, rfl⟩ := h
    exact h0

theorem receiveCommandInput_last {s s' : State} {b : Bool}
    (h : receiveCommandInput s = some (b, s'))
    (h0 : s._inputBuffer[s._inputBufferSize - 1]? = some 0) :
    s'._inputBuffer[s._inputBufferSize - 1]? = some 0 := by
  unfold receiveCommandInput at h
  cases hr : receiveInput s with
  | none => simp [hr] at h
  | some r =>
    obtain ⟨b1, s1⟩ := r
    simp only [hr, Option.some_bind] at h
    have h1 := receiveInput_last hr h0
    split at h
    · obtain ⟨f, hf⟩ := setSelectedFunction_state h
      rw [hf]
      exact h1
    · simp only [Option.some.injEq, Prod.mk.injEq] at h
      obtain ⟨_, rfl⟩ := h
      exact h1

theorem registerCommand_buffer {s s' : State} (hwf : s.WF) {command : Option (List Byte)}
    {function : Option Handler} {mallocOk b : Bool}
    (hstep : registerCommand s command function mallocOk = some (b, s')) :
    s'._inputBuffer = s._inputBuffer ∧ s'._inputBufferSize = s._inputBufferSize := by
  rcases registerCommand_cases s hwf command function mallocOk with hsame | hstored
  · rw [hsame] at hstep
    simp only [Option.some.injEq, Prod.mk.injEq] at hstep
    rw [← hstep.2]
    exact ⟨rfl, rfl⟩
  · obtain ⟨mem, f, ndx, _, _, _, _, _, heq⟩ := hstored
    rw [heq] at hstep
    simp only [Option.some.injEq, Prod.mk.injEq] at hstep
    rw [← hstep.2]
    exact ⟨rfl, rfl⟩

/-- In every reachable state the last byte of the buffer is NUL. -/
theorem reachable_last {s : State} (h : Reachable s) (hN : 1 ≤ s._inputBufferSize) :
    s._inputBuffer[s._inputBufferSize - 1]? = some 0 := by
  induction h with
  | init device N M _ _ =>
    show (List.replicate N (0 : Byte))[N - 1]? = some 0
    have hN' : 1 ≤ N := hN
    rw [List.getElem?_replicate]
    simp
    omega
  | arrive more _ ih => exact ih hN
  | registerCommand command function mallocOk hr hstep ih =>
    obtain ⟨hwf, _⟩ := reachable_inv hr
    obtain ⟨e1, e2⟩ := registerCommand_buffer hwf hstep
    rw [e1, e2]
    exact ih (by rw [← e2]; exact hN)
  | receiveInput hr hstep ih =>
    have hs := (receiveInput_sameTable hstep).2.2.2.1
    rw [hs]
    exact receiveInput_last hstep (ih (by rw [← hs]; exact hN))
  | receiveCommandInput hr hstep ih =>
    have hs := (receiveCommandInput_sameTable hstep).2.2.2.1
    rw [hs]
    exact receiveCommandInput_last hstep (ih (by rw [← hs]; exact hN))

theorem cstr_length_le (l : List Byte) : ∀ (i : Nat), l[i]? = some 0 → (cstr l).length ≤ i := by
  induction l with
  | nil => intro i h; simp at h
  | cons c rest ih =>
    intro i h
    by_cases hc : c = 0
    · simp [cstr, hc]
    · cases i with
      | zero => simp at h; exact absurd h hc
      | succ i =>
        simp only [List.getElem?_cons_succ] at h
        simp only [cstr, hc, if_false, List.length_cons]
        have := ih i h
        omega

/-! ## The claims on the buffer and on the device -/

/-- C11: entries are append-only.  On a well-formed state every call of
`registerCommand` returns, and every slot that was live before the call holds
the same name and the same handler after it; `receiveInput` and
`receiveCommandInput` leave both arrays of the table as they were.
(`runSelectedCommand` has no access to the state in this model: it only reports
the handler it calls.) -/
theorem table_append_only (s : State) (hwf : s.WF) :
    (∀ command function mallocOk, ∃ b s',
      registerCommand s command function mallocOk = some (b, s') ∧
      ∀ (i : Nat) (name : List Byte), s._commandList[i]? = some (some name) →
        s'._commandList[i]? = some (some name) ∧ s'._functionList[i]? = s._functionList[i]?) ∧
    (∀ b s', receiveInput s = some (b, s') →
      s'._commandList = s._commandList ∧ s'._functionList = s._functionList) ∧
    (∀ b s', receiveCommandInput s = some (b, s') →
      s'._commandList = s._commandList ∧ s'._functionList = s._functionList) := by
  refine ⟨fun command function mallocOk => ?_, fun b s' h => ?_, fun b s' h => ?_⟩
  · rcases registerCommand_cases s hwf command function mallocOk with hsame | hstored
    · exact ⟨false, s, hsame, fun i name hi => ⟨hi, rfl⟩⟩
    · obtain ⟨mem, f, ndx, _, _, _, hscan, hlt, heq⟩ := hstored
      refine ⟨true, _, heq, fun i name hi => ?_⟩
      have hslot := (scanSlots_left mem s._commandList 0 ndx hscan).2.2
        (by have := hwf.2.1; omega)
      have hne : ndx ≠ i := by
        intro e
        subst e
        rw [Nat.sub_zero, hi] at hslot
        cases hslot
      exact ⟨by rw [List.getElem?_set_ne hne]; exact hi, by rw [List.getElem?_set_ne hne]⟩
  · have := receiveInput_sameTable h
    exact ⟨this.1, this.2.1⟩
  · have := receiveCommandInput_sameTable h
    exact ⟨this.1, this.2.1⟩

theorem table_append_only_witness :
    (∀ command function mallocOk, ∃ b s',
      registerCommand tableOn command function mallocOk = some (b, s') ∧
      ∀ (i : Nat) (name : List Byte), tableOn._commandList[i]? = some (some name) →
        s'._commandList[i]? = some (some name) ∧
        s'._functionList[i]? = tableOn._functionList[i]?) ∧
    (∀ b s', receiveInput tableOn = some (b, s') →
      s'._commandList = tableOn._commandList ∧ s'._functionList = tableOn._functionList) ∧
    (∀ b s', receiveCommandInput tableOn = some (b, s') →
      s'._commandList = tableOn._commandList ∧ s'._functionList = tableOn._functionList) :=
  table_append_only tableOn (by decide)

/-- C12: in every reachable state of buffer capacity `N ≥ 1` the buffer holds a
NUL at an index `≤ N - 1` (the last byte is always NUL), so the string it holds
has length at most `N - 1`. -/
theorem buffer_terminated (s : State) (h : Reachable s) (hN : 1 ≤ s._inputBufferSize) :
    (∃ i, i ≤ s._inputBufferSize - 1 ∧ s._inputBuffer[i]? = some 0) ∧
    (getSerialBuffer s).length ≤ s._inputBufferSize - 1 := by
  have h0 := reachable_last h hN
  exact ⟨⟨_, Nat.le_refl _, h0⟩, cstr_length_le _ _ h0⟩

theorem buffer_terminated_witness :
    (∃ i, i ≤ 3 - 1 ∧
      ({ init [] 3 2 with _inputBuffer := [111, 110, 0] } : State)._inputBuffer[i]? = some 0) ∧
    (getSerialBuffer { init [] 3 2 with _inputBuffer := [111, 110, 0] }).length ≤ 3 - 1 :=
  buffer_terminated { init [] 3 2 with _inputBuffer := [111, 110, 0] }
    (@Reachable.receiveInput (init [111, 110] 3 2) _ false
      (Reachable.init [111, 110] 3 2 (by decide) (by decide)) (by decide))
    (by decide)

/-- C13: on a well-formed state of buffer capacity `N ≥ 1`, whatever the device
holds, `receiveInput` returns (no assignment falls outside the buffer) and
every index it assigns to is `≤ N - 1`. -/
theorem receiveInput_in_bounds (s : State) (hwf : s.WF) (hN : 1 ≤ s._inputBufferSize) :
    (∃ r, receiveInput s = some r) ∧
    ∀ i ∈ writeIndices s s._device 0, i ≤ s._inputBufferSize - 1 := by
  obtain ⟨hb, _, _, h256, _⟩ := hwf
  constructor
  · unfold receiveInput
    split
    · obtain ⟨r, hr⟩ := receiveInputLoop_total s._device s 0 (by omega) hb h256
      exact ⟨_, by rw [hr]; rfl⟩
    · exact ⟨_, rfl⟩
  · exact writeIndices_bound s._device s 0 (by omega) h256

theorem receiveInput_in_bounds_witness :
    (∃ r, receiveInput (init [97, 98, 99, 100, 101, 10] 4 2) = some r) ∧
    ∀ i ∈ writeIndices (init [97, 98, 99, 100, 101, 10] 4 2)
      (init [97, 98, 99, 100, 101, 10] 4 2)._device 0, i ≤ 4 - 1 :=
  receiveInput_in_bounds (init [97, 98, 99, 100, 101, 10] 4 2) (by decide) (by decide)

/-- C18: when `receiveInput` overflows (the device holds at least
`_inputBufferSize` bytes, no end marker among the first `_inputBufferSize`),
the device is empty when the call returns, whatever was queued behind the
overflowing line, and the next poll finds no data and returns false leaving
the state as it is. -/
theorem receiveInput_overflow_drains (s : State) (hwf : s.WF) (input : List Byte)
    (hN : 1 ≤ s._inputBufferSize) (hlen : s._inputBufferSize ≤ input.length)
    (hem : s._endMarker ∉ input.take s._inputBufferSize) (hdev : s._device = input) :
    ∃ s', receiveInput s = some (false, s') ∧ s'._device = [] ∧
      receiveInput s' = some (false, s') := by
  refine ⟨_, receiveInput_overflow s hwf input hN hlen hem hdev, rfl, ?_⟩
  simp [receiveInput]

theorem receiveInput_overflow_drains_witness :
    ∃ s', receiveInput (init [97, 98, 99, 100, 10, 111, 110, 10] 4 2) = some (false, s') ∧
      s'._device = [] ∧ receiveInput s' = some (false, s') :=
  receiveInput_overflow_drains (init [97, 98, 99, 100, 10, 111, 110, 10] 4 2) (by decide)
    [97, 98, 99, 100, 10, 111, 110, 10] (by decide) (by decide) (by decide) (by decide)

/-- C19: on a well-formed state whose device holds `l1`, the end marker, `l2`,
the end marker and then `rest`, both lines shorter than the buffer capacity and
free of the end marker, the first `receiveInput` returns true with `l1`
followed by NUL at the start of the buffer (its text is `l1` up to a NUL byte
of its own) and leaves exactly `l2`, the end marker and `rest` in the device;
the second returns true with `l2` followed by NUL at the start of the buffer
and leaves exactly `rest`. -/
theorem receiveInput_two_lines (s : State) (hwf : s.WF) (l1 l2 rest : List Byte)
    (hlen1 : l1.length < s._inputBufferSize) (hlen2 : l2.length < s._inputBufferSize)
    (hem1 : s._endMarker ∉ l1) (hem2 : s._endMarker ∉ l2)
    (hdev : s._device = l1 ++ s._endMarker :: (l2 ++ s._endMarker :: rest)) :
    ∃ s1 s2, receiveInput s = some (true, s1) ∧ s1._inputValid = true ∧
      s1._inputBuffer.take (l1.length + 1) = l1 ++ [0] ∧ getSerialBuffer s1 = cstr l1 ∧
      s1._device = l2 ++ s._endMarker :: rest ∧
      receiveInput s1 = some (true, s2) ∧ s2._inputValid = true ∧
      s2._inputBuffer.take (l2.length + 1) = l2 ++ [0] ∧ getSerialBuffer s2 = cstr l2 ∧
      s2._device = rest := by
  have h1 := receiveInput_clean s hwf l1 (l2 ++ s._endMarker :: rest) hlen1 hem1 hdev
  have hwf1 : ({ s with
      _inputBuffer := l1 ++ 0 :: s._inputBuffer.drop (l1.length + 1)
      _inputValid := true
      _device := l2 ++ s._endMarker :: rest } : State).WF :=
    (receiveInput_sameTable h1).wf hwf
  have h2 := receiveInput_clean _ hwf1 l2 rest hlen2 hem2 rfl
  refine ⟨_, _, h1, rfl, ?_, cstr_append_zero_any _ _, rfl, h2, rfl, ?_,
    cstr_append_zero_any _ _, rfl⟩
  · show (l1 ++ 0 :: s._inputBuffer.drop (l1.length + 1)).take (l1.length + 1) = l1 ++ [0]
    rw [List.take_append_eq_append_take]
    simp
  · show (l2 ++ 0 :: _).take (l2.length + 1) = l2 ++ [0]
    rw [List.take_append_eq_append_take]
    simp

theorem receiveInput_two_lines_witness :
    ∃ s1 s2, receiveInput (init [111, 110, 10, 111, 102, 102, 10] 8 2) = some (true, s1) ∧
      s1._inputValid = true ∧
      s1._inputBuffer.take (([111, 110] : List Byte).length + 1) = [111, 110] ++ [0] ∧
      getSerialBuffer s1 = cstr [111, 110] ∧
      s1._device = [111, 102, 102] ++ (init [111, 110, 10, 111, 102, 102, 10] 8 2)._endMarker :: [] ∧
      receiveInput s1 = some (true, s2) ∧ s2._inputValid = true ∧
      s2._inputBuffer.take (([111, 102, 102] : List Byte).length + 1) = [111, 102, 102] ++ [0] ∧
      getSerialBuffer s2 = cstr [111, 102, 102] ∧
      s2._device = [] :=
  receiveInput_two_lines (init [111, 110, 10, 111, 102, 102, 10] 8 2) (by decide)
    [111, 110] [111, 102, 102] [] (by decide) (by decide) (by decide) (by decide) (by decide)

/-- C20: on a well-formed state whose device holds `p` bytes without end
marker, `p` below the buffer capacity, and nothing more, `receiveInput` (and
`receiveCommandInput`) returns false, the `p` bytes are at the indices
`0 .. p-1` of the buffer and every other byte of the buffer, `_inputValid` and
`_functionSelected` are as before; when then the line `t` (shorter than the
capacity, free of the end marker) and the end marker arrive, the next
`receiveInput` returns true with `t` followed by NUL at the start of the buffer:
the text is `t` alone (up to a NUL byte of its own), not the `p` bytes followed
by `t`. -/
theorem receiveInput_unfinished_line (s : State) (hwf : s.WF) (part t : List Byte)
    (hp : part.length < s._inputBufferSize) (hemp : s._endMarker ∉ part)
    (hdev : s._device = part)
    (ht : t.length < s._inputBufferSize) (hemt : s._endMarker ∉ t) :
    ∃ s1 s2, receiveInput s = some (false, s1) ∧ receiveCommandInput s = some (false, s1) ∧
      s1._inputBuffer = part ++ s._inputBuffer.drop part.length ∧
      s1._inputValid = s._inputValid ∧ s1._functionSelected = s._functionSelected ∧
      s1._device = [] ∧
      receiveInput { s1 with _device := s1._device ++ (t ++ [s._endMarker]) } = some (true, s2) ∧
      s2._inputBuffer.take (t.length + 1) = t ++ [0] ∧ getSerialBuffer s2 = cstr t := by
  have h1 := receiveInput_dry s hwf part hp hemp hdev
  have hwf1 : ({ s with
      _inputBuffer := part ++ s._inputBuffer.drop part.length
      _device := [] } : State).WF :=
    (receiveInput_sameTable h1).wf hwf
  have hwf2 : ({ s with
      _inputBuffer := part ++ s._inputBuffer.drop part.length
      _device := [] ++ (t ++ [s._endMarker]) } : State).WF := hwf1
  have h2 := receiveInput_clean _ hwf2 t [] ht hemt (by simp)
  refine ⟨_, _, h1, by simp [receiveCommandInput, h1], rfl, rfl, rfl, rfl, h2, ?_,
    cstr_append_zero_any _ _⟩
  show (t ++ 0 :: _).take (t.length + 1) = t ++ [0]
  rw [List.take_append_eq_append_take]
  simp

theorem receiveInput_unfinished_line_witness :
    ∃ s1 s2, receiveInput { tableOn with _device := [111, 102] } = some (false, s1) ∧
      receiveCommandInput { tableOn with _device := [111, 102] } = some (false, s1) ∧
      s1._inputBuffer = [111, 102] ++
        ({ tableOn with _device := [111, 102] } : State)._inputBuffer.drop
          ([111, 102] : List Byte).length ∧
      s1._inputValid = ({ tableOn with _device := [111, 102] } : State)._inputValid ∧
      s1._functionSelected = ({ tableOn with _device := [111, 102] } : State)._functionSelected ∧
      s1._device = [] ∧
      receiveInput { s1 with _device := s1._device ++
        ([102] ++ [({ tableOn with _device := [111, 102] } : State)._endMarker]) }
        = some (true, s2) ∧
      s2._inputBuffer.take (([102] : List Byte).length + 1) = [102] ++ [0] ∧
      getSerialBuffer s2 = cstr [102] :=
  receiveInput_unfinished_line { tableOn with _device := [111, 102] } (by decide) [111, 102] [102]
    (by decide) (by decide) (by decide) (by decide) (by decide)

/-! ## The claims on `setBaudRate` -/

theorem rnd_in {rnd : ℚ → ℚ} (hr : ∀ q, |rnd q - q| ≤ |q| / 2 ^ 24) {q lo hi lo' hi' : ℚ}
    (hlo : 0 < lo) (h1 : lo ≤ q) (h2 : q ≤ hi)
    (hlo' : lo' ≤ lo * (1 - 1 / 2 ^ 24)) (hhi' : hi * (1 + 1 / 2 ^ 24) ≤ hi') :
    lo' ≤ rnd q ∧ rnd q ≤ hi' := by
  have hq : 0 < q := lt_of_lt_of_le hlo h1
  have h := hr q
  rw [abs_of_pos hq, abs_le] at h
  have e1 : lo * (1 - 1 / 2 ^ 24) ≤ q * (1 - 1 / 2 ^ 24) :=
    mul_le_mul_of_nonneg_right h1 (by norm_num)
  have e2 : q * (1 + 1 / 2 ^ 24) ≤ hi * (1 + 1 / 2 ^ 24) :=
    mul_le_mul_of_nonneg_right h2 (by norm_num)
  constructor
  · linarith [h.1]
  · linarith [h.2]

theorem div_in {a b la ha lb hb : ℚ} (hla : 0 < la) (h1 : la ≤ a) (h2 : a ≤ ha)
    (hlb : 0 < lb) (h3 : lb ≤ b) (h4 : b ≤ hb) :
    0 < la / hb ∧ la / hb ≤ a / b ∧ a / b ≤ ha / lb := by
  have hb0 : 0 < b := lt_of_lt_of_le hlb h3
  have hhb : 0 < hb := lt_of_lt_of_le hb0 h4
  have ha0 : 0 < a := lt_of_lt_of_le hla h1
  refine ⟨div_pos hla hhb, ?_, ?_⟩
  · rw [div_le_div_iff₀ hhb hb0]
    nlinarith
  · rw [div_le_div_iff₀ hb0 hlb]
    nlinarith

theorem fdiv_in {rnd : ℚ → ℚ} (hr : ∀ q, |rnd q - q| ≤ |q| / 2 ^ 24) {a b la ha lb hb : ℚ}
    (lo hi : ℚ) (hla : 0 < la) (h1 : la ≤ a) (h2 : a ≤ ha) (hlb : 0 < lb) (h3 : lb ≤ b) (h4 : b ≤ hb)
    (hlo : lo ≤ la / hb * (1 - 1 / 2 ^ 24)) (hhi : ha / lb * (1 + 1 / 2 ^ 24) ≤ hi) :
    ∃ c, fdiv rnd a b = some c ∧ lo ≤ c ∧ c ≤ hi := by
  have hb0 : b ≠ 0 := ne_of_gt (lt_of_lt_of_le hlb h3)
  obtain ⟨d0, d1, d2⟩ := div_in hla h1 h2 hlb h3 h4
  exact ⟨rnd (a / b), by simp [fdiv, hb0], rnd_in hr d0 d1 d2 hlo hhi⟩

/-- C16: for every state and every baud rate `≤ 0`, `setBaudRate` returns
without writing: the two delays and every other field are as before. -/
theorem setBaudRate_nonpositive (rnd : ℚ → ℚ) (s : State) (baudRate : Int)
    (h : baudRate ≤ 0) : setBaudRate rnd s baudRate = some s := by
  simp [setBaudRate, h]

theorem setBaudRate_nonpositive_witness :
    setBaudRate (fun q => q) tableOn (-9600) = some tableOn :=
  setBaudRate_nonpositive (fun q => q) tableOn (-9600) (by decide)

/-- C17: whatever the rounding of the `double` operations (relative error at
most `2^-24` each, which covers `float` and `double`), `setBaudRate(9600)` on a
state of buffer size 32 computes `_inputDelay = 34` and `_deviceDelay = 67`;
these are the defaults, so a freshly constructed coordinator of buffer size 32
is left unchanged. -/
theorem setBaudRate_9600 (rnd : ℚ → ℚ) (hr : ∀ q, |rnd q - q| ≤ |q| / 2 ^ 24) :
    (∀ s : State, s._inputBufferSize = 32 →
      setBaudRate rnd s 9600 = some { s with _inputDelay := 34, _deviceDelay := 67 }) ∧
    (∀ device M, setBaudRate rnd (init device 32 M) 9600 = some (init device 32 M)) := by
  have main : ∀ s : State, s._inputBufferSize = 32 →
      setBaudRate rnd s 9600 = some { s with _inputDelay := 34, _deviceDelay := 67 } := by
    intro s hsz
    have hbytes : (959.9 : ℚ) ≤ rnd 960 ∧ rnd 960 ≤ 960.1 :=
      rnd_in hr (by norm_num : (0 : ℚ) < 960) (le_refl _) (le_refl _) (by norm_num) (by norm_num)
    have hsize : (31.99 : ℚ) ≤ rnd 32 ∧ rnd 32 ≤ 32.01 :=
      rnd_in hr (by norm_num : (0 : ℚ) < 32) (le_refl _) (le_refl _) (by norm_num) (by norm_num)
    obtain ⟨c1, hc1, c1lo, c1hi⟩ := fdiv_in hr 29.97 30.03 (by norm_num)
      hbytes.1 hbytes.2 (by norm_num) hsize.1 hsize.2 (by norm_num) (by norm_num)
    obtain ⟨d1, hd1, d1lo, d1hi⟩ := fdiv_in hr (a := 1000) 33.1 33.5
      (by norm_num : (0 : ℚ) < 1000) (le_refl _) (le_refl _) (by norm_num) c1lo c1hi
      (by norm_num) (by norm_num)
    obtain ⟨c2, hc2, c2lo, c2hi⟩ := fdiv_in hr (b := 64) 14.98 15.02 (by norm_num)
      hbytes.1 hbytes.2 (by norm_num : (0 : ℚ) < 64) (le_refl _) (le_refl _)
      (by norm_num) (by norm_num)
    obtain ⟨d2, hd2, d2lo, d2hi⟩ := fdiv_in hr (a := 1000) 66.4 66.9
      (by norm_num : (0 : ℚ) < 1000) (le_refl _) (le_refl _) (by norm_num) c2lo c2hi
      (by norm_num) (by norm_num)
    have hceil1 : Int.ceil d1 = 34 := by
      rw [Int.ceil_eq_iff]
      constructor
      · push_cast; linarith
      · push_cast; linarith
    have hceil2 : Int.ceil d2 = 67 := by
      rw [Int.ceil_eq_iff]
      constructor
      · push_cast; linarith
      · push_cast; linarith
    have hdiv : Int.tdiv 9600 10 = 960 := by decide
    simp only [setBaudRate, hsz, hdiv]
    norm_num [hc1, hd1, hc2, hd2, hceil1, hceil2, toUint8]
    exact ⟨by decide, by decide⟩
  refine ⟨main, fun device M => ?_⟩
  rw [main (init device 32 M) rfl]
  rfl

theorem setBaudRate_9600_witness :
    setBaudRate (fun q => q) (init [] 32 8) 9600 = some (init [] 32 8) :=
  (setBaudRate_9600 (fun q => q) (fun q => by
    simp only [sub_self, abs_zero]
    positivity)).2 [] 8

/-! ## The claims on the lookup over an arbitrary slot array -/

theorem findSlot_gap (text : List Byte) (l : List (Option (List Byte))) :
    ∀ (j ndx : Nat), l[j]? = some none →
      (∀ (i : Nat) (name : List Byte), i < j → l[i]? = some (some name) →
        cstr text ≠ cstr name) →
      findSlot text l ndx = none := by
  induction l with
  | nil => intro j ndx _ _; rfl
  | cons slot rest ih =>
    intro j ndx hj hbelow
    cases slot with
    | none => rfl
    | some name =>
      cases j with
      | zero => simp at hj
      | succ j =>
        have hne : cstr text ≠ cstr name := hbelow 0 name (by omega) (by simp)
        simp only [findSlot, hne, if_false]
        refine ih j (ndx + 1) (by simpa using hj) (fun i n hi hn => ?_)
        exact hbelow (i + 1) n (by omega) (by simpa using hn)

/-- C14: on a well-formed state whose slots are all empty, every complete line
(shorter than the buffer capacity, free of the end marker, followed by it)
makes `receiveCommandInput` return false with no handler selected and none
runnable; and on any well-formed slot array with an empty slot at index `j`
and no slot below `j` matching the buffer, `setSelectedFunction` returns false
with no handler selected, whatever the slots above `j` hold. -/
theorem setSelectedFunction_stops_at_empty (s : State) (hwf : s.WF) :
    ((∀ slot ∈ s._commandList, slot = none) → ∀ line rest,
      line.length < s._inputBufferSize → s._endMarker ∉ line →
      s._device = line ++ s._endMarker :: rest →
      ∃ s', receiveCommandInput s = some (false, s') ∧ s'._functionSelected = none ∧
        runSelectedCommand s' = []) ∧
    (∀ j, s._commandList[j]? = some none →
      (∀ (i : Nat) (name : List Byte), i < j → s._commandList[i]? = some (some name) →
        cstr s._inputBuffer ≠ cstr name) →
      setSelectedFunction s = some (false, { s with _functionSelected := none })) := by
  constructor
  · intro hempty line rest hlen hem hdev
    have hrun := receiveCommandInput_clean s hwf line rest hlen hem hdev
    rw [findSlot_none line s._commandList 0
      (fun name hname => by cases hempty _ hname)] at hrun
    exact ⟨_, hrun, rfl, by simp [runSelectedCommand]⟩
  · intro j hj hbelow
    by_cases hv : s._inputValid = true
    · have := setSelectedFunction_eq s hv hwf.2.1 hwf.2.2.1
      rw [findSlot_gap s._inputBuffer s._commandList j 0 hj hbelow] at this
      exact this
    · exact setSelectedFunction_invalid s (by simpa using hv)

theorem setSelectedFunction_stops_at_empty_witness :
    (∃ s', receiveCommandInput (init [111, 110, 10] 8 2) = some (false, s') ∧
      s'._functionSelected = none ∧ runSelectedCommand s' = []) ∧
    setSelectedFunction tableGap = some (false, { tableGap with _functionSelected := none }) ∧
    tableGap._commandList[2]? = some (some (getSerialBuffer tableGap)) :=
  ⟨(setSelectedFunction_stops_at_empty (init [111, 110, 10] 8 2) (by decide)).1 (by decide)
      [111, 110] [] (by decide) (by decide) (by decide),
    (setSelectedFunction_stops_at_empty tableGap (by decide)).2 1 (by decide)
      (fun i name hi h => by
        have hi0 : i = 0 := by omega
        subst hi0
        have hn : name = [111, 102, 102] := by simpa [tableGap, init] using h.symm
        subst hn
        decide),
    by decide⟩

/-! ## The scenario of the specification -/

/-- C15 (amended): with buffer capacity 8 and `"on"` registered under handler 1
and `"off"` under handler 2 (both registrations return true), feeding the 8
bytes `o,f,f,x,x,x,x,x` without end marker makes `receiveCommandInput` return
false with the input invalid, leaves the buffer holding the 7 characters
`offxxxx` and their terminator, and `runSelectedCommand` then calls no
handler. -/
theorem scenario_overflow :
    ((registerCommand (init [111, 102, 102, 120, 120, 120, 120, 120] 8 8)
        (some [111, 110]) (some 1) true).bind fun r1 =>
      (registerCommand r1.2 (some [111, 102, 102]) (some 2) true).bind fun r2 =>
        (receiveCommandInput r2.2).map fun r3 =>
          (r1.1 && r2.1, r3.1, r3.2._inputValid, getSerialBuffer r3.2, runSelectedCommand r3.2))
      = some (true, false, false, [111, 102, 102, 120, 120, 120, 120], []) := by
  decide

/-- C15 as stated fails on the buffer contents: in the scenario the buffer
holds the seven characters `offxxxx`, not the six characters `offxxx`. -/
theorem scenario_overflow_buffer :
    (receiveCommandInput { tableOnOff with
        _device := [111, 102, 102, 120, 120, 120, 120, 120] }).map
      (fun r => (r.1, getSerialBuffer r.2)) = some (false, [111, 102, 102, 120, 120, 120, 120]) ∧
    ([111, 102, 102, 120, 120, 120, 120] : List Byte) ≠ [111, 102, 102, 120, 120, 120] := by
  decide

end SerialCommandCoordinator
